import Mathlib

/-!
# Verification of the forest chain-store / chain-sync core

Shallow embedding of the chain store (`src/blockchain/chain/src/store/chain_store.rs`)
and the chain syncer (`src/blockchain/chain_sync/src/sync.rs`).

Modelling conventions:
* `Cid` is an opaque content identifier; only equality on it is used by the
  embedded code, so it is modelled as `Nat`.
* Rust `BigInt`/`BigUint` weights and token amounts are non-negative and only
  compared / subtracted after a comparison, so they are modelled as `Nat`.
* `ChainEpoch` is `i64`; it is modelled as `Int` (no overflow is exercised).
* The blockstore (`DB : Blockstore`) is modelled as partial lookup functions
  (`get_obj` for headers, the message plumbing as a lookup from the message
  root CID); fallible operations return `Except ChainError`.
* The tipset LRU cache is modelled as a pure lookup `TipsetKeys → Option Tipset`.
  The real cache is only written by `tipset_from_keys` itself with the value
  just materialized from the store, so intra-call insertions are observationally
  neutral; theorems that depend on cache contents carry an explicit
  cache-consistency hypothesis.
-/

/-- Error kinds of the chain store / syncer (`chain/src/store/errors.rs` and
`chain_sync/src/errors.rs`), collapsed into one type; only the variants the
embedded code produces are modelled. -/
inductive ChainError where
  | notFound (s : String)
  | undefinedKey (s : String)
  | invalidTipset (s : String)
  | invalidRoots
  | noBlocks
  | other (s : String)
deriving DecidableEq

/-- A beacon entry: round number and payload bytes (`forest_beacon::BeaconEntry`). -/
structure BeaconEntry where
  round : Nat
  data : List Nat
deriving DecidableEq

/-- Block header (`forest_blocks::BlockHeader`), restricted to the fields the
embedded operations read.  `cid` is the header's own content id, `parents` the
parent tipset key, `messages` the message-root CID, `ticket` stands for the
ticket used for the canonical within-tipset ordering, `win_count` for the
election proof's win count. -/
structure BlockHeader where
  cid : Nat
  parents : List Nat
  epoch : Int
  miner_address : Nat
  weight : Nat
  messages : Nat
  state_root : Nat
  beacon_entries : List BeaconEntry
  ticket : Nat
  win_count : Int
deriving DecidableEq

instance : Inhabited BlockHeader :=
  ⟨⟨0, [], 0, 0, 0, 0, 0, [], 0, 0⟩⟩

/-- `forest_blocks::TipsetKeys`: the ordered list of block CIDs identifying a
tipset. -/
structure TipsetKeys where
  cids : List Nat
deriving DecidableEq

/-- `forest_blocks::Tipset`: an ordered collection of block headers. -/
structure Tipset where
  blocks : List BlockHeader
deriving DecidableEq

/-- `Tipset::min_ticket_block`: blocks are kept sorted, the minimum-ticket
block is the first one. -/
def Tipset.min_ticket_block (ts : Tipset) : BlockHeader :=
  ts.blocks.headD default

/-- `Tipset::epoch`: the common epoch of the blocks. -/
def Tipset.epoch (ts : Tipset) : Int :=
  ts.min_ticket_block.epoch

/-- `Tipset::parents`: the common parent tipset key of the blocks. -/
def Tipset.parents (ts : Tipset) : TipsetKeys :=
  ⟨ts.min_ticket_block.parents⟩

/-- `Tipset::key`: the tipset key, the CIDs of the blocks in order. -/
def Tipset.key (ts : Tipset) : TipsetKeys :=
  ⟨ts.blocks.map (fun b => b.cid)⟩

/-- `Tipset::cids`. -/
def Tipset.cids (ts : Tipset) : List Nat :=
  ts.key.cids

/-- Insertion step of the canonical within-tipset sort (stable, by ticket). -/
def insertByTicket (h : BlockHeader) : List BlockHeader → List BlockHeader
  | [] => [h]
  | h' :: rest =>
    if h.ticket ≤ h'.ticket then h :: h' :: rest else h' :: insertByTicket h rest

/-- Canonical within-tipset ordering: stable insertion sort by ticket. -/
def sortByTicket (l : List BlockHeader) : List BlockHeader :=
  l.foldr insertByTicket []

/-- Modelled from the spec: `Tipset::new` (in `forest_blocks`, not under
`src/`).  Per the spec's data model, a tipset is 1+ headers, all sharing epoch
and parents, with no block appearing twice, ordered lexicographically by
ticket and identified by the ordered list of block CIDs. -/
def Tipset.new (blocks : List BlockHeader) : Except ChainError Tipset :=
  match blocks with
  | [] => .error (.invalidTipset "tipset must contain at least one block")
  | b :: _ =>
    if (blocks.all fun h => h.epoch == b.epoch) &&
       (blocks.all fun h => h.parents == b.parents) &&
       (blocks.map (fun h => h.cid)).Nodup
    then .ok ⟨sortByTicket blocks⟩
    else .error (.invalidTipset "headers disagree on epoch or parents, or repeat")

/-- The canonical tipset key derived from a set of headers: the CIDs in the
canonical (ticket-sorted) order. -/
def canonicalKey (headers : List BlockHeader) : TipsetKeys :=
  ⟨(sortByTicket headers).map (fun b => b.cid)⟩

/-- The blockstore, as consumed by the chain store: `get_obj::<BlockHeader>`. -/
def Store : Type := Nat → Option BlockHeader

/-- The tipset LRU cache, as a pure lookup. -/
def TsCache : Type := TipsetKeys → Option Tipset

/-- Header loading loop of `tipset_from_keys`:
`tsk.cids().iter().map(|c| store.get_obj(c)?.ok_or(NotFound)).collect()`. -/
def getHeaders (db : Store) : List Nat → Except ChainError (List BlockHeader)
  | [] => .ok []
  | c :: rest =>
    match db c with
    | none => .error (.notFound "Key for header")
    | some h =>
      match getHeaders db rest with
      | .error e => .error e
      | .ok t => .ok (h :: t)

/-- Cache-miss path of the free function `tipset_from_keys`: load every header
referenced by `tsk` from the blockstore and construct a tipset. -/
def loadTipset (db : Store) (tsk : TipsetKeys) : Except ChainError Tipset :=
  match getHeaders db tsk.cids with
  | .error e => .error e
  | .ok headers => Tipset.new headers

/-- The free function `tipset_from_keys(cache, store, tsk)`
(`chain_store.rs:652-684`): consult the cache; on a miss, load each referenced
header from the blockstore and construct a tipset. -/
def tipset_from_keys (cache : TsCache) (db : Store) (tsk : TipsetKeys) :
    Except ChainError Tipset :=
  match cache tsk with
  | some ts => .ok ts
  | none => loadTipset db tsk

/-- `update_heaviest` (`chain_store.rs:282-298`) on the heaviest-tipset state:
compute the weight of the current heaviest and of the offered tipset via the
externally supplied `Scale::weight`, replace the head only on strict `>`. -/
def update_heaviest (weight : Tipset → Nat) (cur ts : Tipset) : Tipset :=
  if weight cur < weight ts then ts else cur

/-- `put_tipset` (`chain_store.rs:223-236`) on the heaviest-tipset state:
persist the headers (a blockstore effect, not visible on the head state),
expand the tipset through the tipset tracker, and `update_heaviest` the
expanded tipset.  The tracker expansion is abstracted as a function. -/
def put_tipset (weight : Tipset → Nat) (expand : Tipset → Tipset)
    (cur ts : Tipset) : Tipset :=
  update_heaviest weight cur (expand ts)

/-- A sequence of `put_tipset` calls starting from head `cur`. -/
def runPuts (weight : Tipset → Nat) (expand : Tipset → Tipset)
    (cur : Tipset) (l : List Tipset) : Tipset :=
  l.foldl (put_tipset weight expand) cur

/-- Maximum weight over a list of tipsets. -/
def maxWeight (weight : Tipset → Nat) (l : List Tipset) : Nat :=
  (l.map weight).foldr max 0

lemma maxWeight_cons (w : Tipset → Nat) (x : Tipset) (l : List Tipset) :
    maxWeight w (x :: l) = max (w x) (maxWeight w l) := by
  simp [maxWeight]

lemma le_maxWeight_head (w : Tipset → Nat) (x : Tipset) (l : List Tipset) :
    w x ≤ maxWeight w (x :: l) := by
  rw [maxWeight_cons]; exact Nat.le_max_left _ _

lemma find?_max_foldl (w : Tipset → Nat) :
    ∀ (l : List Tipset) (cur : Tipset),
      (cur :: l).find? (fun t => w t == maxWeight w (cur :: l)) =
        some (l.foldl (update_heaviest w) cur) := by
  intro l
  induction l with
  | nil =>
    intro cur
    simp [maxWeight]
  | cons t l' ih =>
    intro cur
    by_cases hlt : w cur < w t
    · have hupd : update_heaviest w cur t = t := by
        simp [update_heaviest, hlt]
      have hM : maxWeight w (cur :: t :: l') = maxWeight w (t :: l') := by
        rw [maxWeight_cons]
        have : w cur ≤ maxWeight w (t :: l') :=
          le_trans (Nat.le_of_lt hlt) (le_maxWeight_head w t l')
        exact Nat.max_eq_right this
      rw [hM]
      have hcurne : ¬ ((fun s => w s == maxWeight w (t :: l')) cur) = true := by
        intro hbeq
        have heq : w cur = maxWeight w (t :: l') := eq_of_beq hbeq
        have hle : w t ≤ maxWeight w (t :: l') := le_maxWeight_head w t l'
        omega
      rw [@List.find?_cons_of_neg _ (fun s => w s == maxWeight w (t :: l'))
        cur (t :: l') hcurne]
      simp only [List.foldl_cons, hupd]
      exact ih t
    · have hle : w t ≤ w cur := Nat.le_of_not_lt hlt
      have hupd : update_heaviest w cur t = cur := by
        simp [update_heaviest, hlt]
      have hM : maxWeight w (cur :: t :: l') = maxWeight w (cur :: l') := by
        rw [maxWeight_cons, maxWeight_cons, maxWeight_cons]
        omega
      rw [hM]
      have ihc := ih cur
      simp only [List.foldl_cons, hupd]
      by_cases hcur : ((fun s => w s == maxWeight w (cur :: l')) cur) = true
      · rw [@List.find?_cons_of_pos _ (fun s => w s == maxWeight w (cur :: l'))
          cur (t :: l') hcur]
        rw [@List.find?_cons_of_pos _ (fun s => w s == maxWeight w (cur :: l'))
          cur l' hcur] at ihc
        exact ihc
      · have hcurlt : w cur < maxWeight w (cur :: l') := by
          have h1 : w cur ≤ maxWeight w (cur :: l') := le_maxWeight_head w cur l'
          have h2 : w cur ≠ maxWeight w (cur :: l') := by
            intro h
            exact hcur (by simp only [h, beq_self_eq_true])
          omega
        have htne : ¬ ((fun s => w s == maxWeight w (cur :: l')) t) = true := by
          intro hbeq
          have heq : w t = maxWeight w (cur :: l') := eq_of_beq hbeq
          omega
        rw [@List.find?_cons_of_neg _ (fun s => w s == maxWeight w (cur :: l'))
          cur (t :: l') hcur]
        rw [@List.find?_cons_of_neg _ (fun s => w s == maxWeight w (cur :: l'))
          t l' htne]
        rw [@List.find?_cons_of_neg _ (fun s => w s == maxWeight w (cur :: l'))
          cur l' hcur] at ihc
        exact ihc

/-- **C1**: for every sequence of `put_tipset(T_i)` calls, the head is replaced
only when the expanded tipset's weight strictly exceeds the current heaviest's
weight (equal or smaller weight is a no-op), so the final heaviest tipset is
the earliest-observed tipset of maximal weight among the initial head and the
expanded offered tipsets. -/
theorem put_tipset_seq_earliest_max (weight : Tipset → Nat) (expand : Tipset → Tipset)
    (cur : Tipset) (l : List Tipset) :
    (∀ c t : Tipset, weight t ≤ weight c → update_heaviest weight c t = c) ∧
    ((cur :: l.map expand).find?
        (fun t => weight t == maxWeight weight (cur :: l.map expand)) =
      some (runPuts weight expand cur l)) := by
  constructor
  · intro c t h
    simp [update_heaviest, Nat.not_lt.mpr h]
  · have hfold : runPuts weight expand cur l =
        (l.map expand).foldl (update_heaviest weight) cur := by
      rw [runPuts, List.foldl_map]
      rfl
    rw [hfold]
    exact find?_max_foldl weight (l.map expand) cur

/-- Sample headers used as concrete inputs by witness theorems. -/
def hdrA : BlockHeader := ⟨1, [], 1, 0, 3, 0, 0, [], 1, 0⟩

def hdrB : BlockHeader := ⟨2, [1], 2, 0, 7, 0, 0, [], 2, 0⟩

def hdrC : BlockHeader := ⟨3, [1], 2, 0, 7, 0, 0, [], 3, 0⟩

def tsA : Tipset := ⟨[hdrA]⟩

def tsB : Tipset := ⟨[hdrB]⟩

def tsC : Tipset := ⟨[hdrC]⟩

/-- Witness for C1 at a concrete input: head `tsA` (weight 3), offers
`tsB`, `tsC` (both weight 7); the earliest maximal-weight tipset `tsB` wins. -/
theorem put_tipset_seq_earliest_max_witness :
    runPuts (fun ts => ts.min_ticket_block.weight) id tsA [tsB, tsC] = tsB := by
  have h := (put_tipset_seq_earliest_max (fun ts => ts.min_ticket_block.weight)
    id tsA [tsB, tsC]).2
  have hfind : (tsA :: [tsB, tsC].map id).find?
      (fun t => t.min_ticket_block.weight ==
        maxWeight (fun ts => ts.min_ticket_block.weight) (tsA :: [tsB, tsC].map id)) =
      some tsB := by decide
  rw [hfind] at h
  exact (Option.some.injEq _ _).mp h.symm

/-- An unsigned message (`forest_shim::message::Message`), restricted to the
fields the embedded code reads: sender, per-sender nonce, required funds.
`from_` models the Rust accessor `from()` (`from` is reserved in Lean). -/
structure Msg where
  from_ : Nat
  sequence : Nat
  required_funds : Nat
deriving DecidableEq

/-- A signed message (`forest_message::SignedMessage`). -/
structure SignedMessage where
  message : Msg
  signature : Nat
deriving DecidableEq

/-- `forest_message::ChainMessage`: unsigned (BLS) or signed (SECP). -/
inductive ChainMessage where
  | unsigned (m : Msg)
  | signed (sm : SignedMessage)
deriving DecidableEq

/-- `ChainMessage::from()`, delegating to the wrapped message. -/
def ChainMessage.from_ : ChainMessage → Nat
  | .unsigned m => m.from_
  | .signed sm => sm.message.from_

/-- `ChainMessage::sequence()`, delegating to the wrapped message. -/
def ChainMessage.sequence : ChainMessage → Nat
  | .unsigned m => m.sequence
  | .signed sm => sm.message.sequence

/-- `ChainMessage::required_funds()`, delegating to the wrapped message. -/
def ChainMessage.required_funds : ChainMessage → Nat
  | .unsigned m => m.required_funds
  | .signed sm => sm.message.required_funds

/-- The message side of the blockstore: `block_messages(db, bh)` resolves the
header's message-root CID through `read_msg_cids` (TxMeta + two AMTs, both
decoded by external `fvm` crates) and `messages_from_cids`; the whole
content-addressed plumbing is abstracted as a lookup from the message-root CID
to the BLS and SECP message lists. -/
def MsgStore : Type := Nat → Option (List Msg × List SignedMessage)

/-- `block_messages(db, bh)` (`chain_store.rs:688-701`): load the BLS and SECP
messages of a block; a dangling message root is `UndefinedKey`. -/
def block_messages (mdb : MsgStore) (bh : BlockHeader) :
    Except ChainError (List Msg × List SignedMessage) :=
  match mdb bh.messages with
  | some p => .ok p
  | none => .error (.undefinedKey "no msg root")

/-- The `applied: HashMap<Address, u64>` of `block_msgs_for_tipset`, as a pure
map. -/
def Applied : Type := Nat → Option Nat

/-- `HashMap` insertion. -/
def Applied.insert (app : Applied) (k v : Nat) : Applied :=
  fun a => if a = k then some v else app a

/-- `select_msg` (`chain_store.rs:498-509`): look the sender up in `applied`,
inserting the message's own sequence when absent (`entry(..).or_insert_with`);
drop the message when the expected sequence disagrees, otherwise keep it and
bump the expected sequence.  The counter is a `u64`, so `*entry += 1` wraps at
`2^64` (`18446744073709551616`) in release builds. -/
def select_msg (app : Applied) (m : ChainMessage) :
    Option ChainMessage × Applied :=
  let entry := (app m.from_).getD m.sequence
  let app' := Applied.insert app m.from_ entry
  if entry ≠ m.sequence then (none, app')
  else (some m, Applied.insert app' m.from_ ((entry + 1) % 18446744073709551616))

/-- `filter_map(select_msg)` over a message list, threading `applied`. -/
def selectAll (app : Applied) : List ChainMessage → List ChainMessage × Applied
  | [] => ([], app)
  | m :: rest =>
    match select_msg app m with
    | (none, app') => selectAll app' rest
    | (some kept, app') =>
      let r := selectAll app' rest
      (kept :: r.1, r.2)

/-- `forest_interpreter::BlockMessages`: miner, selected messages, win count. -/
structure BlockMessages where
  miner : Nat
  messages : List ChainMessage
  win_count : Int
deriving DecidableEq

/-- The per-block loop of `block_msgs_for_tipset` (`chain_store.rs:511-536`):
for each block load BLS and SECP messages and run `select_msg` over them (BLS
first, then SECP), threading the `applied` map across blocks. -/
def processBlocks (mdb : MsgStore) :
    List BlockHeader → Applied → Except ChainError (List BlockMessages × Applied)
  | [], app => .ok ([], app)
  | b :: rest, app =>
    match block_messages mdb b with
    | .error e => .error e
    | .ok (usm, sm) =>
      let r := selectAll app
        ((usm.map ChainMessage.unsigned) ++ (sm.map ChainMessage.signed))
      match processBlocks mdb rest r.2 with
      | .error e => .error e
      | .ok (tail, app') =>
        .ok (⟨b.miner_address, r.1, b.win_count⟩ :: tail, app')

/-- `block_msgs_for_tipset` (`chain_store.rs:496-537`). -/
def block_msgs_for_tipset (mdb : MsgStore) (ts : Tipset) :
    Except ChainError (List BlockMessages) :=
  match processBlocks mdb ts.blocks (fun _ => none) with
  | .error e => .error e
  | .ok (bms, _) => .ok bms

/-- The tipset's messages in encounter order (blocks in tipset order, BLS
before SECP within a block), before deduplication. -/
def flatInputMsgs (mdb : MsgStore) :
    List BlockHeader → Except ChainError (List ChainMessage)
  | [] => .ok []
  | b :: rest =>
    match block_messages mdb b with
    | .error e => .error e
    | .ok (usm, sm) =>
      match flatInputMsgs mdb rest with
      | .error e => .error e
      | .ok t =>
        .ok ((usm.map ChainMessage.unsigned) ++ (sm.map ChainMessage.signed) ++ t)

lemma Applied.insert_insert (app : Applied) (k v w : Nat) :
    Applied.insert (Applied.insert app k v) k w = Applied.insert app k w := by
  funext a
  by_cases ha : a = k <;> simp [Applied.insert, ha]

lemma Applied.insert_self (app : Applied) (k v : Nat) (h : app k = some v) :
    Applied.insert app k v = app := by
  funext a
  by_cases ha : a = k
  · simp [Applied.insert, ha, h.symm]
  · simp [Applied.insert, ha]

lemma selectAll_cons_drop (app : Applied) (m : ChainMessage)
    (rest : List ChainMessage) (e : Nat) (happ : app m.from_ = some e)
    (hne : e ≠ m.sequence) :
    selectAll app (m :: rest) = selectAll app rest := by
  have hsel : select_msg app m = (none, app) := by
    simp only [select_msg, happ, Option.getD_some]
    rw [if_pos hne, Applied.insert_self app m.from_ e happ]
  simp [selectAll, hsel]

lemma selectAll_cons_keep (app : Applied) (m : ChainMessage)
    (rest : List ChainMessage)
    (h : (app m.from_).getD m.sequence = m.sequence) :
    selectAll app (m :: rest) =
      (m :: (selectAll (Applied.insert app m.from_
          ((m.sequence + 1) % 18446744073709551616)) rest).1,
        (selectAll (Applied.insert app m.from_
          ((m.sequence + 1) % 18446744073709551616)) rest).2) := by
  have hsel : select_msg app m =
      (some m, Applied.insert app m.from_
        ((m.sequence + 1) % 18446744073709551616)) := by
    simp only [select_msg, h, ne_eq, not_true_eq_false, if_false,
      Applied.insert_insert]
  simp [selectAll, hsel]

/-- `u64` wrap-around runs: `e, e+1, …` reduced modulo `2^64`. -/
def wrapSeqs (e k : Nat) : List Nat :=
  (List.range' e k).map (fun x => x % 18446744073709551616)

lemma wrapSeqs_congr :
    ∀ (k x y : Nat),
      x % 18446744073709551616 = y % 18446744073709551616 →
      wrapSeqs x k = wrapSeqs y k := by
  intro k
  induction k with
  | zero =>
    intro x y _
    rfl
  | succ n ih =>
    intro x y h
    simp only [wrapSeqs, List.range'_succ, List.map_cons]
    rw [h]
    have htail := ih (x + 1) (y + 1) (by omega)
    simp only [wrapSeqs] at htail
    rw [htail]

lemma wrapSeqs_head_tail (e k : Nat) (he : e < 18446744073709551616) :
    wrapSeqs e (k + 1) =
      e :: wrapSeqs ((e + 1) % 18446744073709551616) k := by
  simp only [wrapSeqs, List.range'_succ, List.map_cons]
  rw [Nat.mod_eq_of_lt he]
  have htail := wrapSeqs_congr k (e + 1) ((e + 1) % 18446744073709551616)
    (by omega)
  simp only [wrapSeqs] at htail
  rw [htail]

lemma wrapSeqs_nodup (e k : Nat) (hk : k ≤ 18446744073709551616) :
    (wrapSeqs e k).Nodup := by
  refine (List.nodup_range' e k 1 (by omega)).map_on ?_
  intro x hx y hy hxy
  rw [List.mem_range'_1] at hx hy
  omega

lemma selectAll_mem :
    ∀ (msgs : List ChainMessage) (app : Applied) (m : ChainMessage),
      m ∈ (selectAll app msgs).1 → m ∈ msgs := by
  intro msgs
  induction msgs with
  | nil =>
    intro app m hm
    simp [selectAll] at hm
  | cons m0 rest ih =>
    intro app m hm
    by_cases hk : (app m0.from_).getD m0.sequence = m0.sequence
    · rw [selectAll_cons_keep app m0 rest hk] at hm
      rcases List.mem_cons.mp hm with rfl | hm2
      · exact List.mem_cons_self m rest
      · exact List.mem_cons_of_mem m0 (ih _ m hm2)
    · rcases ho : app m0.from_ with _ | e
      · rw [ho] at hk
        simp at hk
      · have hne : e ≠ m0.sequence := by
          rw [ho, Option.getD_some] at hk
          exact hk
        rw [selectAll_cons_drop app m0 rest e ho hne] at hm
        exact List.mem_cons_of_mem m0 (ih app m hm)

lemma selectAll_run_of_some :
    ∀ (msgs : List ChainMessage) (app : Applied) (s e : Nat), app s = some e →
      e < 18446744073709551616 →
      (((selectAll app msgs).1).filter (fun m => m.from_ == s)).map
          ChainMessage.sequence =
        wrapSeqs e
          ((((selectAll app msgs).1).filter (fun m => m.from_ == s)).length) := by
  intro msgs
  induction msgs with
  | nil =>
    intro app s e _ _
    simp [selectAll, wrapSeqs]
  | cons m0 rest ih =>
    intro app s e happ he
    by_cases hk : (app m0.from_).getD m0.sequence = m0.sequence
    · rw [selectAll_cons_keep app m0 rest hk]
      by_cases hs : m0.from_ = s
      · have heq : e = m0.sequence := by
          rw [hs, happ, Option.getD_some] at hk
          exact hk
        have hb : (m0.from_ == s) = true := by
          simp [hs]
        simp only [List.filter_cons, hb, if_true, List.map_cons, List.length_cons]
        have happ2 : Applied.insert app m0.from_
            ((m0.sequence + 1) % 18446744073709551616) s =
            some ((m0.sequence + 1) % 18446744073709551616) := by
          simp [Applied.insert, hs]
        rw [ih _ s _ happ2 (by omega), heq,
          wrapSeqs_head_tail m0.sequence _ (by omega)]
      · have hb : (m0.from_ == s) = false := by
          simp [hs]
        simp only [List.filter_cons, hb, Bool.false_eq_true, if_false]
        have happ2 : Applied.insert app m0.from_
            ((m0.sequence + 1) % 18446744073709551616) s = some e := by
          have hs2 : s ≠ m0.from_ := fun h => hs h.symm
          simp [Applied.insert, hs2, happ]
        exact ih _ s e happ2 he
    · rcases ho : app m0.from_ with _ | e2
      · rw [ho] at hk
        simp at hk
      · have hne : e2 ≠ m0.sequence := by
          rw [ho, Option.getD_some] at hk
          exact hk
        rw [selectAll_cons_drop app m0 rest e2 ho hne]
        exact ih app s e happ he

lemma selectAll_run_of_none :
    ∀ (msgs : List ChainMessage) (app : Applied) (s : Nat), app s = none →
      ∀ m1, msgs.find? (fun m => m.from_ == s) = some m1 →
        m1.sequence < 18446744073709551616 →
        (((selectAll app msgs).1).filter (fun m => m.from_ == s)).map
            ChainMessage.sequence =
          wrapSeqs m1.sequence
            ((((selectAll app msgs).1).filter (fun m => m.from_ == s)).length) := by
  intro msgs
  induction msgs with
  | nil =>
    intro app s _ m1 hfind
    simp [List.find?] at hfind
  | cons m0 rest ih =>
    intro app s happ m1 hfind hm1seq
    by_cases hs : m0.from_ = s
    · have hb : (m0.from_ == s) = true := by
        simp [hs]
      have hm1 : m1 = m0 := by
        rw [List.find?_cons, hb] at hfind
        exact (Option.some.injEq _ _).mp hfind.symm
      have hk : (app m0.from_).getD m0.sequence = m0.sequence := by
        rw [hs, happ]
        rfl
      rw [selectAll_cons_keep app m0 rest hk]
      simp only [List.filter_cons, hb, if_true, List.map_cons, List.length_cons]
      have happ2 : Applied.insert app m0.from_
          ((m0.sequence + 1) % 18446744073709551616) s =
          some ((m0.sequence + 1) % 18446744073709551616) := by
        simp [Applied.insert, hs]
      rw [selectAll_run_of_some rest _ s _ happ2 (by omega), hm1,
        wrapSeqs_head_tail m0.sequence _ (by rw [hm1] at hm1seq; omega)]
    · have hb : (m0.from_ == s) = false := by
        simp [hs]
      have hfind2 : rest.find? (fun m => m.from_ == s) = some m1 := by
        rw [List.find?_cons, hb] at hfind
        exact hfind
      by_cases hk : (app m0.from_).getD m0.sequence = m0.sequence
      · rw [selectAll_cons_keep app m0 rest hk]
        simp only [List.filter_cons, hb, Bool.false_eq_true, if_false]
        have happ2 : Applied.insert app m0.from_
            ((m0.sequence + 1) % 18446744073709551616) s = none := by
          have hs2 : s ≠ m0.from_ := fun h => hs h.symm
          simp [Applied.insert, hs2, happ]
        exact ih _ s happ2 m1 hfind2 hm1seq
      · rcases ho : app m0.from_ with _ | e2
        · rw [ho] at hk
          simp at hk
        · have hne : e2 ≠ m0.sequence := by
            rw [ho, Option.getD_some] at hk
            exact hk
          rw [selectAll_cons_drop app m0 rest e2 ho hne]
          exact ih app s happ m1 hfind2 hm1seq

lemma pairs_nodup_of_filters :
    ∀ (L : List ChainMessage),
      (∀ s : Nat,
        ((L.filter (fun m => m.from_ == s)).map ChainMessage.sequence).Nodup) →
      (L.map (fun m => (m.from_, m.sequence))).Nodup := by
  intro L
  induction L with
  | nil =>
    intro _
    simp
  | cons m T ih =>
    intro hf
    simp only [List.map_cons, List.nodup_cons]
    have hfm := hf m.from_
    have hbm : ((fun x => x.from_ == m.from_) m) = true := by
      simp
    rw [@List.filter_cons_of_pos _ (fun x => x.from_ == m.from_) m T hbm,
      List.map_cons, List.nodup_cons] at hfm
    constructor
    · intro hmem
      simp only [List.mem_map] at hmem
      obtain ⟨m2, hm2, hpair⟩ := hmem
      have h1 : m2.from_ = m.from_ := congrArg Prod.fst hpair
      have h2 : m2.sequence = m.sequence := congrArg Prod.snd hpair
      apply hfm.1
      rw [← h2]
      exact List.mem_map.mpr ⟨m2, List.mem_filter.mpr ⟨hm2, by simp [h1]⟩, rfl⟩
    · apply ih
      intro s
      by_cases hs : s = m.from_
      · rw [hs]
        exact hfm.2
      · have hbs : ((fun x => x.from_ == s) m) = false := by
          simp
          exact fun h => hs h.symm
        have hfs := hf s
        rw [@List.filter_cons_of_neg _ (fun x => x.from_ == s) m T
          (by simpa using hbs)] at hfs
        exact hfs

lemma selectAll_append :
    ∀ (l1 l2 : List ChainMessage) (app : Applied),
      selectAll app (l1 ++ l2) =
        ((selectAll app l1).1 ++ (selectAll (selectAll app l1).2 l2).1,
          (selectAll (selectAll app l1).2 l2).2) := by
  intro l1
  induction l1 with
  | nil =>
    intro l2 app
    simp [selectAll]
  | cons m rest ih =>
    intro l2 app
    rcases hsel : select_msg app m with ⟨o, app'⟩
    rcases o with _ | kept
    · simp only [List.cons_append, selectAll, hsel, List.append_eq]
      exact ih l2 app'
    · simp only [List.cons_append, selectAll, hsel, List.append_eq]
      rw [ih l2 app']

lemma processBlocks_flatten (mdb : MsgStore) :
    ∀ (bs : List BlockHeader) (app : Applied) (bms : List BlockMessages)
      (appf : Applied),
      processBlocks mdb bs app = .ok (bms, appf) →
      ∃ input, flatInputMsgs mdb bs = .ok input ∧
        selectAll app input = ((bms.map BlockMessages.messages).flatten, appf) := by
  intro bs
  induction bs with
  | nil =>
    intro app bms appf h
    simp only [processBlocks, Except.ok.injEq, Prod.mk.injEq] at h
    refine ⟨[], by simp [flatInputMsgs], ?_⟩
    simp [selectAll, ← h.1, h.2]
  | cons b rest ih =>
    intro app bms appf h
    simp only [processBlocks] at h
    rcases hbm : block_messages mdb b with e | ⟨usm, sm⟩
    · rw [hbm] at h
      exact absurd h (by simp)
    · rw [hbm] at h
      dsimp only at h
      rcases hpb : processBlocks mdb rest
          (selectAll app ((usm.map ChainMessage.unsigned) ++
            (sm.map ChainMessage.signed))).2 with e | ⟨tail, app2⟩
      · rw [hpb] at h
        exact absurd h (by simp)
      · rw [hpb] at h
        simp only [Except.ok.injEq, Prod.mk.injEq] at h
        obtain ⟨hbms, happf⟩ := h
        obtain ⟨input', hin', hsel'⟩ := ih _ tail app2 hpb
        refine ⟨(usm.map ChainMessage.unsigned) ++
          (sm.map ChainMessage.signed) ++ input', ?_, ?_⟩
        · simp only [flatInputMsgs, hbm, hin']
        · rw [selectAll_append, hsel']
          rw [← hbms]
          simp only [List.map_cons, List.flatten_cons, happf]

/-- **C2 (amended)**: `block_msgs_for_tipset` deduplicates by sender with a
`u64` expected-sequence counter that wraps at `2^64`: for each sender the
retained sequences are `first, first+1, …` reduced modulo `2^64` (contiguous
except across a wrap), starting at the sender's first-observed sequence, and
no two retained messages share `(sender, sequence)` as long as no sender
retains more than `2^64` messages.  The `u64` hypothesis on the input
sequences reflects the source type. -/
theorem block_msgs_for_tipset_dedup (mdb : MsgStore) (ts : Tipset)
    (bms : List BlockMessages)
    (hok : block_msgs_for_tipset mdb ts = .ok bms) :
    ∃ input, flatInputMsgs mdb ts.blocks = .ok input ∧
      ((∀ m ∈ input, m.sequence < 18446744073709551616) →
        (∀ s m1, input.find? (fun m => m.from_ == s) = some m1 →
          ((((bms.map BlockMessages.messages).flatten).filter
              (fun m => m.from_ == s)).map ChainMessage.sequence) =
            wrapSeqs m1.sequence
              ((((bms.map BlockMessages.messages).flatten).filter
                  (fun m => m.from_ == s)).length)) ∧
        ((∀ s : Nat, (((bms.map BlockMessages.messages).flatten).filter
            (fun m => m.from_ == s)).length ≤ 18446744073709551616) →
          (((bms.map BlockMessages.messages).flatten).map
              (fun m => (m.from_, m.sequence))).Nodup)) := by
  rw [block_msgs_for_tipset] at hok
  rcases hpb : processBlocks mdb ts.blocks (fun _ => none) with e | ⟨bms', appf⟩
  · rw [hpb] at hok
    exact absurd hok (by simp)
  · rw [hpb] at hok
    simp only [Except.ok.injEq] at hok
    subst hok
    obtain ⟨input, hin, hsel⟩ :=
      processBlocks_flatten mdb ts.blocks (fun _ => none) bms' appf hpb
    have hflat : (selectAll (fun _ => none) input).1 =
        (bms'.map BlockMessages.messages).flatten := congrArg Prod.fst hsel
    refine ⟨input, hin, ?_⟩
    intro hu64
    constructor
    · intro s m1 hfind
      have hm1 : m1.sequence < 18446744073709551616 :=
        hu64 m1 (List.mem_of_find?_eq_some hfind)
      have hrun := selectAll_run_of_none input (fun _ => none) s rfl m1 hfind hm1
      rw [hflat] at hrun
      exact hrun
    · intro hlen
      apply pairs_nodup_of_filters
      intro s
      rcases hfind : input.find? (fun m => m.from_ == s) with _ | m1
      · have hnone := List.find?_eq_none.mp hfind
        have hnil : ((bms'.map BlockMessages.messages).flatten).filter
            (fun m => m.from_ == s) = [] := by
          rw [List.filter_eq_nil_iff]
          intro m hm
          refine hnone m ?_
          apply selectAll_mem input (fun _ => none) m
          rw [hflat]
          exact hm
        rw [hnil]
        simp
      · have hm1 : m1.sequence < 18446744073709551616 :=
          hu64 m1 (List.mem_of_find?_eq_some hfind)
        have hrun := selectAll_run_of_none input (fun _ => none) s rfl m1
          hfind hm1
        rw [hflat] at hrun
        rw [hrun]
        exact wrapSeqs_nodup _ _ (hlen s)

/-- Message-root CID 7 resolves to two BLS messages from sender 10 with
sequences 5 and 6 plus one SECP message repeating `(10, 5)`. -/
def mdbW : MsgStore := fun r =>
  if r = 7 then some ([⟨10, 5, 0⟩, ⟨10, 6, 0⟩], [⟨⟨10, 5, 0⟩, 0⟩]) else none

def hdrD : BlockHeader := ⟨4, [1], 2, 1, 7, 7, 0, [], 4, 0⟩

def tsD : Tipset := ⟨[hdrD]⟩

/-- The expected deduplicated output for `tsD` under `mdbW`: the duplicate
SECP `(10, 5)` is dropped. -/
def bmsW : List BlockMessages :=
  [⟨1, [.unsigned ⟨10, 5, 0⟩, .unsigned ⟨10, 6, 0⟩], 0⟩]

/-- Message-root CID 7 resolving to sender 10's messages with sequences
`u64::MAX` and `0`: the wrapped continuation of `MAX`. -/
def mdbWrap : MsgStore := fun r =>
  if r = 7 then
    some ([⟨10, 18446744073709551615, 0⟩, ⟨10, 0, 0⟩], [])
  else none

/-- Output of `block_msgs_for_tipset` on `tsD` under `mdbWrap`: BOTH messages
are retained, because the expected counter wraps from `u64::MAX` to `0`. -/
def bmsWrap : List BlockMessages :=
  [⟨1, [.unsigned ⟨10, 18446744073709551615, 0⟩, .unsigned ⟨10, 0, 0⟩], 0⟩]

/-- **C2 counterexample**: a sender whose first message carries sequence
`u64::MAX = 2^64 - 1` retains the wrapped run `[2^64 - 1, 0]`, which is NOT
the contiguous increasing run `List.range' (2^64 - 1) 2 = [2^64 - 1, 2^64]`
starting at the first-observed sequence that the claim asserts. -/
theorem block_msgs_wrap_counterexample :
    block_msgs_for_tipset mdbWrap tsD = .ok bmsWrap ∧
    (((bmsWrap.map BlockMessages.messages).flatten.filter
        (fun m => m.from_ == 10)).map ChainMessage.sequence) =
      [18446744073709551615, 0] ∧
    [18446744073709551615, 0] ≠
      List.range' 18446744073709551615 2 := by
  refine ⟨rfl, rfl, ?_⟩
  intro h
  have h1 := congrArg (fun l => l.getD 1 0) h
  simp [List.range'] at h1

/-- Witness for the amended C2 at a concrete input. -/
theorem block_msgs_for_tipset_dedup_witness :
    ∃ input, flatInputMsgs mdbW tsD.blocks = .ok input ∧
      ((∀ m ∈ input, m.sequence < 18446744073709551616) →
        (∀ s m1, input.find? (fun m => m.from_ == s) = some m1 →
          ((((bmsW.map BlockMessages.messages).flatten).filter
              (fun m => m.from_ == s)).map ChainMessage.sequence) =
            wrapSeqs m1.sequence
              ((((bmsW.map BlockMessages.messages).flatten).filter
                  (fun m => m.from_ == s)).length)) ∧
        ((∀ s : Nat, (((bmsW.map BlockMessages.messages).flatten).filter
            (fun m => m.from_ == s)).length ≤ 18446744073709551616) →
          (((bmsW.map BlockMessages.messages).flatten).map
              (fun m => (m.from_, m.sequence))).Nodup)) :=
  block_msgs_for_tipset_dedup mdbW tsD bmsW rfl

lemma mem_insertByTicket (a h : BlockHeader) :
    ∀ l : List BlockHeader, a ∈ insertByTicket h l ↔ a = h ∨ a ∈ l := by
  intro l
  induction l with
  | nil => simp [insertByTicket]
  | cons h' rest ih =>
    by_cases hle : h.ticket ≤ h'.ticket
    · simp [insertByTicket, hle]
    · simp only [insertByTicket, if_neg hle, List.mem_cons, ih]
      tauto

lemma mem_sortByTicket (a : BlockHeader) :
    ∀ l : List BlockHeader, a ∈ sortByTicket l ↔ a ∈ l := by
  intro l
  induction l with
  | nil => simp [sortByTicket]
  | cons h rest ih =>
    simp only [sortByTicket, List.foldr_cons, List.mem_cons]
    rw [show List.foldr insertByTicket [] rest = sortByTicket rest from rfl] at *
    rw [mem_insertByTicket, ih]

lemma getHeaders_mem (db : Store) :
    ∀ (cids : List Nat) (hs : List BlockHeader), getHeaders db cids = .ok hs →
      ∀ h ∈ hs, ∃ c ∈ cids, db c = some h := by
  intro cids
  induction cids with
  | nil =>
    intro hs hok h hh
    simp only [getHeaders, Except.ok.injEq] at hok
    subst hok
    simp at hh
  | cons c rest ih =>
    intro hs hok h hh
    simp only [getHeaders] at hok
    rcases hc : db c with _ | h0
    · rw [hc] at hok
      exact absurd hok (by simp)
    · rw [hc] at hok
      rcases hr : getHeaders db rest with e | t
      · rw [hr] at hok
        exact absurd hok (by simp)
      · rw [hr] at hok
        simp only [Except.ok.injEq] at hok
        subst hok
        rcases List.mem_cons.mp hh with rfl | ht
        · exact ⟨c, List.mem_cons_self c rest, hc⟩
        · obtain ⟨c', hc', hdb⟩ := ih t hr h ht
          exact ⟨c', List.mem_cons_of_mem c hc', hdb⟩

lemma getHeaders_missing (db : Store) :
    ∀ cids : List Nat, (∃ c ∈ cids, db c = none) →
      getHeaders db cids = .error (.notFound "Key for header") := by
  intro cids
  induction cids with
  | nil =>
    intro h
    simp at h
  | cons c rest ih =>
    intro h
    obtain ⟨c', hc', hnone⟩ := h
    rcases List.mem_cons.mp hc' with rfl | hmem
    · simp [getHeaders, hnone]
    · rcases hc : db c with _ | h0
      · simp [getHeaders, hc]
      · rw [getHeaders, hc, ih ⟨c', hmem, hnone⟩]

lemma Tipset.new_ok (headers : List BlockHeader) (T : Tipset)
    (h : Tipset.new headers = .ok T) : T = ⟨sortByTicket headers⟩ := by
  rcases headers with _ | ⟨b, rest⟩
  · simp [Tipset.new] at h
  · rw [Tipset.new] at h
    by_cases hcond : (((b :: rest).all fun h => h.epoch == b.epoch) &&
        ((b :: rest).all fun h => h.parents == b.parents) &&
        ((b :: rest).map (fun h => h.cid)).Nodup : Bool) = true
    · rw [if_pos hcond] at h
      exact ((Except.ok.injEq _ _).mp h).symm
    · rw [if_neg hcond] at h
      exact absurd h (by simp)

/-- Cache consistency: a cached tipset is exactly what loading its key from
the blockstore would produce.  In operation the cache is only populated by
`tipset_from_keys` itself with the value it just loaded. -/
def cacheConsistent (cache : TsCache) (db : Store) : Prop :=
  ∀ tsk ts, cache tsk = some ts → loadTipset db tsk = .ok ts

/-- Content addressing: a header stored under CID `c` has CID `c`. -/
def storeWellFormed (db : Store) : Prop :=
  ∀ c h, db c = some h → h.cid = c

/-- `heaviest_tipset` (`chain_store.rs:251-255`): materialize the tipset of
the HEAD cell's keys and `.expect` success; the `none` result models the
panic.  (The HEAD keys are never empty: the cell defaults to `{genesis}` and
is overwritten only with keys of constructed tipsets.) -/
def heaviest_tipset (cache : TsCache) (db : Store) (headKeys : TipsetKeys) :
    Option Tipset :=
  (tipset_from_keys cache db headKeys).toOption

/-- The `ChainStore::tipset_from_keys` method (`chain_store.rs:268-273`),
named apart from the free function it wraps: empty keys return the current
heaviest tipset, otherwise defer to the free `tipset_from_keys`.  The outer
`Option` is `none` exactly when `heaviest_tipset` panics. -/
def chainStoreTipsetFromKeys (cache : TsCache) (db : Store)
    (headKeys : TipsetKeys) (tsk : TipsetKeys) :
    Option (Except ChainError Tipset) :=
  if tsk.cids = [] then (heaviest_tipset cache db headKeys).map .ok
  else some (tipset_from_keys cache db tsk)

lemma tipset_from_keys_consistent (cache : TsCache) (db : Store)
    (tsk : TipsetKeys) (T : Tipset) (hcc : cacheConsistent cache db)
    (h : tipset_from_keys cache db tsk = .ok T) : loadTipset db tsk = .ok T := by
  rw [tipset_from_keys] at h
  rcases hc : cache tsk with _ | ts
  · rw [hc] at h
    exact h
  · rw [hc] at h
    simp only [Except.ok.injEq] at h
    subst h
    exact hcc tsk ts hc

/-- **C3**: with an empty CID list `ChainStore::tipset_from_keys` returns the
current heaviest tipset; with a non-empty list it returns a tipset whose every
header is retrievable from the blockstore by its CID and whose key is the
canonical key of the loaded headers, and it fails with `NotFound` when any
referenced header is absent. -/
theorem tipset_from_keys_spec (cache : TsCache) (db : Store)
    (headKeys tsk : TipsetKeys) (hcc : cacheConsistent cache db)
    (hwf : storeWellFormed db) :
    (tsk.cids = [] → ∀ hts, heaviest_tipset cache db headKeys = some hts →
      chainStoreTipsetFromKeys cache db headKeys tsk = some (.ok hts)) ∧
    (∀ T, tsk.cids ≠ [] →
      chainStoreTipsetFromKeys cache db headKeys tsk = some (.ok T) →
      (∀ h ∈ T.blocks, db h.cid = some h) ∧
      ∃ headers, getHeaders db tsk.cids = .ok headers ∧
        T.key = canonicalKey headers) ∧
    (tsk.cids ≠ [] → (∃ c ∈ tsk.cids, db c = none) →
      chainStoreTipsetFromKeys cache db headKeys tsk =
        some (.error (.notFound "Key for header"))) := by
  refine ⟨?_, ?_, ?_⟩
  · intro he hts hh
    simp [chainStoreTipsetFromKeys, he, hh]
  · intro T hne hres
    rw [chainStoreTipsetFromKeys, if_neg hne] at hres
    simp only [Option.some.injEq] at hres
    have hload := tipset_from_keys_consistent cache db tsk T hcc hres
    rw [loadTipset] at hload
    rcases hg : getHeaders db tsk.cids with e | headers
    · rw [hg] at hload
      exact absurd hload (by simp)
    · rw [hg] at hload
      have hT := Tipset.new_ok headers T hload
      constructor
      · intro h hh
        rw [hT] at hh
        have hmem : h ∈ headers := (mem_sortByTicket h headers).mp hh
        obtain ⟨c, _, hdb⟩ := getHeaders_mem db tsk.cids headers hg h hmem
        rw [hwf c h hdb]
        exact hdb
      · exact ⟨headers, rfl, by rw [hT]; rfl⟩
  · intro hne hmiss
    have hg := getHeaders_missing db tsk.cids hmiss
    have hload : loadTipset db tsk = .error (.notFound "Key for header") := by
      rw [loadTipset, hg]
    have hcm : cache tsk = none := by
      rcases hc : cache tsk with _ | ts
      · rfl
      · have := hcc tsk ts hc
        rw [hload] at this
        exact absurd this (by simp)
    rw [chainStoreTipsetFromKeys, if_neg hne, tipset_from_keys, hcm, hload]

def cacheW : TsCache := fun _ => none

def dbW : Store := fun c => if c = 1 then some hdrA else none

lemma cacheW_consistent : cacheConsistent cacheW dbW := by
  intro tsk ts h
  exact absurd h (by simp [cacheW])

lemma dbW_wellFormed : storeWellFormed dbW := by
  intro c h hch
  by_cases hc : c = 1
  · subst hc
    have h2 : some hdrA = some h := hch
    injection h2 with h3
    rw [← h3]
    rfl
  · simp [dbW, hc] at hch

/-- Witness for C3 at a concrete input: loading `{1}` succeeds and yields a
tipset backed by the store with the canonical key. -/
theorem tipset_from_keys_spec_witness :
    (∀ h ∈ (Tipset.mk [hdrA]).blocks, dbW h.cid = some h) ∧
    ∃ headers, getHeaders dbW (TipsetKeys.mk [1]).cids = .ok headers ∧
      (Tipset.mk [hdrA]).key = canonicalKey headers :=
  (tipset_from_keys_spec cacheW dbW ⟨[1]⟩ ⟨[1]⟩ cacheW_consistent
    dbW_wellFormed).2.1 ⟨[hdrA]⟩ (by simp) (by rfl)

/-- A tipset key is materializable when loading it from the blockstore
succeeds. -/
def materializable (db : Store) (tsk : TipsetKeys) : Prop :=
  ∃ ts, loadTipset db tsk = .ok ts

/-- **C10**: `heaviest_tipset` has no error result (its model returns
`Option Tipset`, where `none` is the `.expect` panic); the panic happens when
the persisted HEAD keys reference a header absent from the blockstore, and it
is reachable exactly when the HEAD keys are not materializable. -/
theorem heaviest_tipset_no_error (cache : TsCache) (db : Store)
    (headKeys : TipsetKeys) (hcc : cacheConsistent cache db) :
    ((∃ c ∈ headKeys.cids, db c = none) →
      heaviest_tipset cache db headKeys = none) ∧
    (heaviest_tipset cache db headKeys = none ↔ ¬ materializable db headKeys) := by
  have hiff : heaviest_tipset cache db headKeys = none ↔
      ¬ materializable db headKeys := by
    rw [heaviest_tipset, tipset_from_keys]
    rcases hc : cache headKeys with _ | ts
    · rcases hl : loadTipset db headKeys with e | ts
      · simp only [Except.toOption]
        constructor
        · intro _ hmat
          obtain ⟨ts', hts'⟩ := hmat
          rw [hl] at hts'
          exact absurd hts' (by simp)
        · intro _
          trivial
      · simp only [Except.toOption]
        constructor
        · intro h
          exact absurd h (by simp)
        · intro hmat
          exact absurd ⟨ts, hl⟩ hmat
    · have hl := hcc headKeys ts hc
      simp only [Except.toOption]
      constructor
      · intro h
        exact absurd h (by simp)
      · intro hmat
        exact absurd ⟨ts, hl⟩ hmat
  refine ⟨?_, hiff⟩
  intro hmiss
  apply hiff.mpr
  intro hmat
  obtain ⟨ts, hts⟩ := hmat
  rw [loadTipset, getHeaders_missing db headKeys.cids hmiss] at hts
  exact absurd hts (by simp)

/-- Witness for C10 at a concrete input: HEAD keys `{2}` with CID 2 absent
from the store make `heaviest_tipset` panic. -/
theorem heaviest_tipset_no_error_witness :
    heaviest_tipset cacheW dbW ⟨[2]⟩ = none :=
  (heaviest_tipset_no_error cacheW dbW ⟨[2]⟩ cacheW_consistent).1
    ⟨2, by simp, by simp [dbW]⟩

/-- HEAD initialization inside `ChainStore::new` (`chain_store.rs:148-160`):
load the stored HEAD keys (defaulting to `{genesis}` when the file is
absent), and reset to `{genesis}` when they do not materialize via
`tipset_from_keys`. -/
def chainStoreLoadHead (cache : TsCache) (db : Store)
    (stored : Option TipsetKeys) (genesisCid : Nat) : TipsetKeys :=
  let head := stored.getD ⟨[genesisCid]⟩
  match tipset_from_keys cache db head with
  | .ok _ => head
  | .error _ => ⟨[genesisCid]⟩

/-- **C7**: at construction, a stored HEAD that cannot be materialized from
the blockstore is reset to the singleton genesis key; a materializable HEAD
is left unchanged. -/
theorem chain_store_new_head_reset (cache : TsCache) (db : Store)
    (stored : Option TipsetKeys) (genesisCid : Nat) :
    (∀ ts, tipset_from_keys cache db (stored.getD ⟨[genesisCid]⟩) = .ok ts →
      chainStoreLoadHead cache db stored genesisCid =
        stored.getD ⟨[genesisCid]⟩) ∧
    (∀ e, tipset_from_keys cache db (stored.getD ⟨[genesisCid]⟩) = .error e →
      chainStoreLoadHead cache db stored genesisCid = ⟨[genesisCid]⟩) := by
  constructor
  · intro ts hts
    rw [chainStoreLoadHead, hts]
  · intro e he
    rw [chainStoreLoadHead, he]

/-- Witness for C7 at a concrete input: stored HEAD `{2}` is not
materializable under `dbW`, so HEAD is reset to the genesis key `{1}`. -/
theorem chain_store_new_head_reset_witness :
    chainStoreLoadHead cacheW dbW (some ⟨[2]⟩) 1 = ⟨[1]⟩ :=
  (chain_store_new_head_reset cacheW dbW (some ⟨[2]⟩) 1).2
    (.notFound "Key for header") (by rfl)

/-- Modelled from the spec: `ChainIndex::get_tipset_by_height` (chain index
C5, `store/index.rs`, not under `src/`): "walks ancestors of `start` until an
ancestor's epoch ≤ `target_epoch`", loading parents through the shared tipset
cache.  `fuel` bounds the walk (chains are finite). -/
def get_tipset_by_height (cache : TsCache) (db : Store) :
    Nat → Tipset → Int → Except ChainError Tipset
  | 0, _, _ => .error (.other "chain walk exhausted")
  | fuel + 1, start, target =>
    if start.epoch ≤ target then .ok start
    else
      match tipset_from_keys cache db start.parents with
      | .error e => .error e
      | .ok pts => get_tipset_by_height cache db fuel pts target

/-- Modelled from the spec: `ChainIndex::get_tipset_by_height_without_cache`:
"performs a linear parent walk" with the same stopping rule, loading parents
from the blockstore. -/
def get_tipset_by_height_without_cache (db : Store) :
    Nat → Tipset → Int → Except ChainError Tipset
  | 0, _, _ => .error (.other "chain walk exhausted")
  | fuel + 1, start, target =>
    if start.epoch ≤ target then .ok start
    else
      match loadTipset db start.parents with
      | .error e => .error e
      | .ok pts => get_tipset_by_height_without_cache db fuel pts target

/-- The chain-index lookup as `tipset_by_height` uses it: the fast path, with
the slow no-cache retry when the fast path comes back below the requested
height (`chain_store.rs:350-360`). -/
def resolvedLookup (cache : TsCache) (db : Store) (fuel : Nat) (ts : Tipset)
    (height : Int) : Except ChainError Tipset :=
  match get_tipset_by_height cache db fuel ts height with
  | .error e => .error e
  | .ok lbts0 =>
    if lbts0.epoch < height then
      get_tipset_by_height_without_cache db fuel ts height
    else .ok lbts0

/-- `tipset_by_height` (`chain_store.rs:335-367`).  The final `else` branch
calls the `ChainStore::tipset_from_keys` method, hence the `headKeys`
parameter and the outer `Option` (`none` models the heaviest-tipset panic,
reachable only if `lbts` is the parentless genesis tipset). -/
def tipset_by_height (cache : TsCache) (db : Store) (headKeys : TipsetKeys)
    (fuel : Nat) (height : Int) (ts : Tipset) (prev : Bool) :
    Option (Except ChainError Tipset) :=
  if height > ts.epoch then
    some (.error (.other
      "searching for tipset that has a height less than starting point"))
  else if height = ts.epoch then some (.ok ts)
  else
    match resolvedLookup cache db fuel ts height with
    | .error e => some (.error e)
    | .ok lbts =>
      if lbts.epoch = height ∨ prev = false then some (.ok lbts)
      else chainStoreTipsetFromKeys cache db headKeys lbts.parents

def hdrG4 : BlockHeader := ⟨21, [], 0, 0, 1, 0, 0, [], 0, 0⟩

def hdrA4 : BlockHeader := ⟨22, [21], 1, 0, 2, 0, 0, [], 0, 0⟩

def hdrC4 : BlockHeader := ⟨23, [22], 3, 0, 4, 0, 0, [], 0, 0⟩

/-- A three-tipset chain `G (epoch 0) ← A (epoch 1) ← C (epoch 3)` with a
null round at epoch 2. -/
def dbW4 : Store := fun c =>
  if c = 21 then some hdrG4
  else if c = 22 then some hdrA4
  else if c = 23 then some hdrC4
  else none

def tsG4 : Tipset := ⟨[hdrG4]⟩

def tsA4 : Tipset := ⟨[hdrA4]⟩

def tsC4 : Tipset := ⟨[hdrC4]⟩

/-- **C4 counterexample**: querying height 2 (a null round: the lookup lands
on `A`, epoch 1 < 2) from `C` with `prev = true` does NOT return the child of
`A` across the null round (which is `C`, epoch 3): the code loads `A`'s
parents and returns `G` (epoch 0), the tipset on the earlier side. -/
theorem tipset_by_height_claim_counterexample :
    tipset_by_height cacheW dbW4 ⟨[23]⟩ 10 2 tsC4 true = some (.ok tsG4) ∧
    tsG4.epoch = 0 ∧ tsC4.epoch = 3 ∧ tsC4.parents = tsA4.key ∧
    tsG4 ≠ tsC4 := by
  refine ⟨by rfl, by rfl, by rfl, by rfl, ?_⟩
  intro h
  exact absurd (congrArg Tipset.blocks h) (by decide)

/-- **C4 (amended)**: `tipset_by_height(height, ts, prev)` rejects
`height > ts.epoch()`, returns `ts` when `height = ts.epoch()`, and when the
chain-index lookup lands on an ancestor with epoch < height (a null round) it
returns that ancestor for `prev = false` and the tipset loaded from that
ancestor's parents (the tipset on the earlier side of the null round, not its
child) for `prev = true`. -/
theorem tipset_by_height_spec (cache : TsCache) (db : Store)
    (headKeys : TipsetKeys) (fuel : Nat) (height : Int) (ts : Tipset) :
    (height > ts.epoch → ∀ prev,
      tipset_by_height cache db headKeys fuel height ts prev =
        some (.error (.other
          "searching for tipset that has a height less than starting point"))) ∧
    (height = ts.epoch → ∀ prev,
      tipset_by_height cache db headKeys fuel height ts prev =
        some (.ok ts)) ∧
    (∀ lbts, height < ts.epoch →
      resolvedLookup cache db fuel ts height = .ok lbts →
      lbts.epoch < height →
      tipset_by_height cache db headKeys fuel height ts false =
        some (.ok lbts) ∧
      tipset_by_height cache db headKeys fuel height ts true =
        chainStoreTipsetFromKeys cache db headKeys lbts.parents) := by
  refine ⟨?_, ?_, ?_⟩
  · intro hgt prev
    rw [tipset_by_height, if_pos hgt]
  · intro heq prev
    rw [tipset_by_height, if_neg (by omega), if_pos heq]
  · intro lbts hlt hres hlb
    have h1 : ¬ height > ts.epoch := by omega
    have h2 : ¬ height = ts.epoch := by omega
    have h3 : ¬ lbts.epoch = height := by omega
    constructor
    · rw [tipset_by_height, if_neg h1, if_neg h2, hres]
      simp [h3]
    · rw [tipset_by_height, if_neg h1, if_neg h2, hres]
      simp [h3]

/-- Witness for the amended C4 at the concrete null-round chain. -/
theorem tipset_by_height_spec_witness :
    tipset_by_height cacheW dbW4 ⟨[23]⟩ 10 2 tsC4 false = some (.ok tsA4) ∧
    tipset_by_height cacheW dbW4 ⟨[23]⟩ 10 2 tsC4 true =
      chainStoreTipsetFromKeys cacheW dbW4 ⟨[23]⟩ tsA4.parents :=
  (tipset_by_height_spec cacheW dbW4 ⟨[23]⟩ 10 2 tsC4).2.2 tsA4
    (by decide) (by rfl) (by decide)

/-- A full block of the syncer (`chain_sync/src/sync.rs`): header plus
materialized BLS and SECP messages. -/
structure Block where
  header : BlockHeader
  bls_messages : List Msg
  secp_messages : List SignedMessage
deriving DecidableEq

instance : Inhabited Block :=
  ⟨⟨default, [], []⟩⟩

/-- `forest_blocks::FullTipset`. -/
structure FullTipset where
  blocks : List Block
deriving DecidableEq

/-- `FullTipset::tipset()`: strip the messages. -/
def FullTipset.tipset (fts : FullTipset) : Tipset :=
  ⟨fts.blocks.map (fun b => b.header)⟩

/-- `validate_msg_data` (`sync.rs:202-212`): recompute the message root from
the block's BLS/SECP messages and reject on mismatch; the AMT/TxMeta
content-addressing of `compute_msg_data` is abstracted as `msgRoot`.
(The message persistence on success is a blockstore effect.) -/
def validate_msg_data (msgRoot : Block → Nat) (b : Block) :
    Except ChainError Unit :=
  if b.header.messages ≠ msgRoot b then .error .invalidRoots else .ok ()

/-- The per-block validation loop of `inform_new_head`. -/
def validateAllMsgData (msgRoot : Block → Nat) :
    List Block → Except ChainError Unit
  | [] => .ok ()
  | b :: rest =>
    match validate_msg_data msgRoot b with
    | .error e => .error e
    | .ok _ => validateAllMsgData msgRoot rest

/-- `inform_new_head` (`sync.rs:176-199`): reject empty tipsets, validate
message roots, then compare the candidate's weight (`fts.blocks()[0]`) with
the local heaviest's (`heaviest.blocks()[0]`); the returned `Bool` is whether
the headers were persisted and the peer head recorded
(`if !target_weight.lt(&best_weight)`). -/
def inform_new_head (msgRoot : Block → Nat) (heaviest : Tipset)
    (fts : FullTipset) : Except ChainError Bool :=
  if fts.blocks = [] then .error .noBlocks
  else
    match validateAllMsgData msgRoot fts.blocks with
    | .error e => .error e
    | .ok _ =>
      let best_weight := (heaviest.blocks.headD default).weight
      let target_weight := ((fts.blocks.headD default).header).weight
      .ok (if target_weight < best_weight then false else true)

/-- The candidate block/tipset for the C5 counterexample: weight 7, equal to
the heaviest `tsB`'s. -/
def blk5 : Block := ⟨⟨9, [1], 2, 0, 7, 0, 0, [], 9, 0⟩, [], []⟩

def fts5 : FullTipset := ⟨[blk5]⟩

/-- The message root recomputation in the counterexample agrees with the
header. -/
def msgRootW : Block → Nat := fun b => b.header.messages

/-- **C5 counterexample**: a valid candidate whose weight EQUALS the local
heaviest's weight is persisted and recorded as the peer's head (the code
tests `!(target < best)`, i.e. `≥`), contradicting the claim that recording
happens only when the weight strictly exceeds the local heaviest. -/
theorem inform_new_head_claim_counterexample :
    inform_new_head msgRootW tsB fts5 = .ok true ∧
    ¬ ((fts5.blocks.headD default).header.weight >
        (tsB.blocks.headD default).weight) := by
  exact ⟨rfl, by decide⟩

/-- **C5 (amended)**: for a non-empty candidate whose message roots validate,
`inform_new_head` records the peer head and persists the headers if and only
if the candidate's weight is greater than or equal to the local heaviest's
weight (the code accepts ties: `!(target < best)`). -/
theorem inform_new_head_spec (msgRoot : Block → Nat) (heaviest : Tipset)
    (fts : FullTipset) (hne : fts.blocks ≠ [])
    (hvalid : validateAllMsgData msgRoot fts.blocks = .ok ()) :
    inform_new_head msgRoot heaviest fts = .ok
      (if (fts.blocks.headD default).header.weight <
          (heaviest.blocks.headD default).weight then false else true) ∧
    (inform_new_head msgRoot heaviest fts = .ok true ↔
      (heaviest.blocks.headD default).weight ≤
        (fts.blocks.headD default).header.weight) := by
  have h1 : inform_new_head msgRoot heaviest fts = .ok
      (if (fts.blocks.headD default).header.weight <
          (heaviest.blocks.headD default).weight then false else true) := by
    rw [inform_new_head, if_neg hne, hvalid]
  refine ⟨h1, ?_⟩
  rw [h1]
  by_cases hw : (fts.blocks.headD default).header.weight <
      (heaviest.blocks.headD default).weight
  · rw [if_pos hw]
    constructor
    · intro h
      exact absurd h (by simp)
    · intro h
      omega
  · rw [if_neg hw]
    constructor
    · intro _
      omega
    · intro _
      rfl

/-- Witness for the amended C5 at the equal-weight input: the tie is
recorded. -/
theorem inform_new_head_spec_witness :
    inform_new_head msgRootW tsB fts5 = .ok
      (if (fts5.blocks.headD default).header.weight <
          (tsB.blocks.headD default).weight then false else true) ∧
    (inform_new_head msgRootW tsB fts5 = .ok true ↔
      (tsB.blocks.headD default).weight ≤
        (fts5.blocks.headD default).header.weight) :=
  inform_new_head_spec msgRootW tsB fts5 (by decide) (by rfl)

/-- The syncer's bad-block cache (`bad_blocks: LruCache<Cid, String>`,
capacity `1 << 15`, `sync.rs:134`): an association list in recency order,
most recent first, of length at most the capacity. -/
abbrev LruBad : Type := List (Nat × String)

/-- The bad-block cache capacity, `1 << 15`. -/
def badBlockCap : Nat := 2 ^ 15

/-- `LruCache::get`: the value under `k`; a hit bumps the entry to the
front. -/
def lruGet (cache : LruBad) (k : Nat) : Option String × LruBad :=
  match cache.find? (fun p => p.1 == k) with
  | some p => (some p.2, p :: cache.filter (fun q => q.1 != k))
  | none => (none, cache)

/-- `LruCache::put`: (re-)insert at the front, dropping any previous entry
for the key and evicting the least-recently-used entry when over
capacity. -/
def lruPut (cache : LruBad) (cap : Nat) (k : Nat) (v : String) : LruBad :=
  ((k, v) :: cache.filter (fun q => q.1 != k)).take cap

/-- Cache lookup (no recency bump), for stating results. -/
def lruLookup (cache : LruBad) (k : Nat) : Option String :=
  (cache.find? (fun p => p.1 == k)).map (fun p => p.2)

/-- The quarantine loop of `validate_tipset_against_cache`
(`sync.rs:468-471`): put every accepted CID with reason
`chain contained <c>`. -/
def quarantine (bad : LruBad) (accepted : List Nat) (c : Nat) : LruBad :=
  accepted.foldl
    (fun m bh => lruPut m badBlockCap bh ("chain contained " ++ toString c)) bad

/-- `validate_tipset_against_cache` (`sync.rs:461-480`): scan the tipset
key's CIDs in order; at the first CID present in the bad-block cache,
quarantine every already-accepted CID and fail with a message naming the bad
CID and its recorded reason.  Returns the result with the updated cache. -/
def validate_tipset_against_cache (bad : LruBad) :
    List Nat → List Nat → (Except ChainError Unit) × LruBad
  | [], _ => (.ok (), bad)
  | c :: rest, accepted =>
    match lruGet bad c with
    | (some reason, bumped) =>
      (.error (.other ("Chain contained block marked as bad: " ++
          toString c ++ ", " ++ reason)),
        quarantine bumped accepted c)
    | (none, _) => validate_tipset_against_cache bad rest accepted

lemma lruGet_of_lookup_none (cache : LruBad) (k : Nat)
    (h : lruLookup cache k = none) : lruGet cache k = (none, cache) := by
  rw [lruLookup] at h
  rcases hf : cache.find? (fun p => p.1 == k) with _ | p
  · rw [lruGet, hf]
  · rw [hf] at h
    simp at h

lemma lruGet_fst (cache : LruBad) (k : Nat) :
    (lruGet cache k).1 = lruLookup cache k := by
  rcases hf : cache.find? (fun p => p.1 == k) with _ | p <;>
    simp [lruGet, lruLookup, hf]

lemma lruPut_lookup_self (m : LruBad) (cap k : Nat) (v : String)
    (hcap : 1 ≤ cap) :
    lruLookup (lruPut m cap k v) k = some v := by
  rcases cap with _ | c
  · omega
  · rw [lruPut, List.take_succ_cons, lruLookup, List.find?_cons]
    simp

lemma lruPut_all_values_self (v : String) (cap : Nat) (m : LruBad) (bh : Nat) :
    ∀ q ∈ lruPut m cap bh v, q.1 = bh → q.2 = v := by
  intro q hq hqk
  have hq2 : q ∈ (bh, v) :: m.filter (fun r => r.1 != bh) :=
    List.take_subset _ _ hq
  rcases List.mem_cons.mp hq2 with rfl | hq3
  · rfl
  · exfalso
    have hpq := List.of_mem_filter hq3
    simp at hpq
    exact hpq hqk

lemma lruPut_all_values (v : String) (cap : Nat) (m : LruBad) (bh k : Nat)
    (hall : ∀ q ∈ m, q.1 = bh → q.2 = v) :
    ∀ q ∈ lruPut m cap k v, q.1 = bh → q.2 = v := by
  intro q hq hqk
  have hq2 : q ∈ (k, v) :: m.filter (fun r => r.1 != k) :=
    List.take_subset _ _ hq
  rcases List.mem_cons.mp hq2 with rfl | hq3
  · rfl
  · exact hall q (List.mem_of_mem_filter hq3) hqk

lemma lruPut_survives (v : String) (cap : Nat) (m : LruBad) (bh k : Nat)
    (p : Nat) (pre suf : List (Nat × String))
    (hdec : m = pre ++ (bh, v) :: suf) (hp : pre.length ≤ p)
    (hcap : p + 2 ≤ cap) :
    ∃ pre2 suf2, lruPut m cap k v = pre2 ++ (bh, v) :: suf2 ∧
      pre2.length ≤ p + 1 := by
  by_cases hk : k = bh
  · subst hk
    rcases cap with _ | c
    · omega
    · rw [lruPut, List.take_succ_cons]
      exact ⟨[], _, rfl, by simp⟩
  · have hbne : (((bh, v) : Nat × String).1 != k) = true := by
      simp
      exact fun h => hk h.symm
    have hfil : m.filter (fun r => r.1 != k) =
        pre.filter (fun r => r.1 != k) ++
          (bh, v) :: suf.filter (fun r => r.1 != k) := by
      rw [hdec, List.filter_append]
      congr 1
      exact @List.filter_cons_of_pos _ (fun r => r.1 != k) (bh, v) suf hbne
    have hlen1 : ((k, v) :: pre.filter (fun r => r.1 != k)).length ≤ p + 1 := by
      have hfl := List.length_filter_le (fun r => r.1 != k) pre
      simp only [List.length_cons]
      omega
    rw [lruPut, hfil, ← List.cons_append, List.take_append_eq_append_take,
      List.take_of_length_le (le_trans hlen1 (by omega))]
    obtain ⟨d, hd⟩ : ∃ d, cap -
        ((k, v) :: pre.filter (fun r => r.1 != k)).length = d + 1 :=
      ⟨cap - ((k, v) :: pre.filter (fun r => r.1 != k)).length - 1, by omega⟩
    rw [hd, List.take_succ_cons]
    exact ⟨(k, v) :: pre.filter (fun r => r.1 != k),
      (suf.filter (fun r => r.1 != k)).take d, rfl, hlen1⟩

lemma quarantineFold_survives (v : String) (cap : Nat) :
    ∀ (l : List Nat) (m : LruBad) (bh : Nat) (p : Nat),
      (∃ pre suf, m = pre ++ (bh, v) :: suf ∧ pre.length ≤ p) →
      p + l.length + 1 ≤ cap →
      ∃ pre2 suf2,
        l.foldl (fun acc k => lruPut acc cap k v) m = pre2 ++ (bh, v) :: suf2 := by
  intro l
  induction l with
  | nil =>
    intro m bh p hdec _
    obtain ⟨pre, suf, hm, _⟩ := hdec
    exact ⟨pre, suf, hm⟩
  | cons k l2 ih =>
    intro m bh p hdec hcap
    obtain ⟨pre, suf, hm, hp⟩ := hdec
    simp only [List.length_cons] at hcap
    obtain ⟨pre2, suf2, hdec2, hp2⟩ :=
      lruPut_survives v cap m bh k p pre suf hm hp (by omega)
    simp only [List.foldl_cons]
    exact ih (lruPut m cap k v) bh (p + 1) ⟨pre2, suf2, hdec2, hp2⟩ (by omega)

lemma quarantineFold_all_values (v : String) (cap : Nat) :
    ∀ (l : List Nat) (m : LruBad) (bh : Nat),
      (∀ q ∈ m, q.1 = bh → q.2 = v) →
      ∀ q ∈ l.foldl (fun acc k => lruPut acc cap k v) m, q.1 = bh → q.2 = v := by
  intro l
  induction l with
  | nil =>
    intro m bh hall
    exact hall
  | cons k l2 ih =>
    intro m bh hall
    simp only [List.foldl_cons]
    exact ih _ bh (lruPut_all_values v cap m bh k hall)

lemma lruLookup_of_decomp (m : LruBad) (bh : Nat) (v : String)
    (hdec : ∃ pre suf, m = pre ++ (bh, v) :: suf)
    (hall : ∀ q ∈ m, q.1 = bh → q.2 = v) : lruLookup m bh = some v := by
  obtain ⟨pre, suf, hm⟩ := hdec
  have hmem : (bh, v) ∈ m := by
    rw [hm]
    exact List.mem_append_right pre (List.mem_cons_self _ _)
  rcases hf : m.find? (fun p => p.1 == bh) with _ | q
  · exfalso
    have hno := List.find?_eq_none.mp hf (bh, v) hmem
    simp at hno
  · have hq : q ∈ m := List.mem_of_find?_eq_some hf
    have hqk : q.1 = bh := by
      have hps := List.find?_some hf
      simpa using hps
    rw [lruLookup, hf]
    simp only [Option.map_some']
    rw [hall q hq hqk]

lemma quarantine_inserts (bad1 : LruBad) (pre : List Nat) (bh c : Nat) :
    lruLookup (quarantine bad1 (pre ++ [bh]) c) bh =
      some ("chain contained " ++ toString c) := by
  rw [quarantine, List.foldl_append, List.foldl_cons, List.foldl_nil]
  exact lruPut_lookup_self _ badBlockCap bh _ (by decide)

lemma quarantine_retains (bad1 : LruBad) (accepted : List Nat) (c : Nat)
    (hlen : accepted.length ≤ badBlockCap) :
    ∀ bh ∈ accepted,
      lruLookup (quarantine bad1 accepted c) bh =
        some ("chain contained " ++ toString c) := by
  intro bh hbh
  obtain ⟨preA, postA, hA⟩ := List.append_of_mem hbh
  subst hA
  rw [quarantine, List.foldl_append, List.foldl_cons]
  have hd1 : ∃ pre suf,
      lruPut (preA.foldl (fun m x =>
          lruPut m badBlockCap x ("chain contained " ++ toString c)) bad1)
        badBlockCap bh ("chain contained " ++ toString c) =
        pre ++ (bh, "chain contained " ++ toString c) :: suf ∧
        pre.length ≤ 0 := by
    rw [lruPut, show badBlockCap = 32767 + 1 from rfl, List.take_succ_cons]
    exact ⟨[], _, rfl, Nat.le_refl 0⟩
  have hall1 := lruPut_all_values_self ("chain contained " ++ toString c)
    badBlockCap (preA.foldl (fun m x =>
      lruPut m badBlockCap x ("chain contained " ++ toString c)) bad1) bh
  have hcap2 : 0 + postA.length + 1 ≤ badBlockCap := by
    simp only [List.length_append, List.length_cons] at hlen
    omega
  obtain ⟨pre2, suf2, hdec2⟩ := quarantineFold_survives
    ("chain contained " ++ toString c) badBlockCap postA _ bh 0 hd1 hcap2
  have hall2 := quarantineFold_all_values ("chain contained " ++ toString c)
    badBlockCap postA _ bh hall1
  exact lruLookup_of_decomp _ bh _ ⟨pre2, suf2, hdec2⟩ hall2

/-- **C6**: whenever the scanned tipset key contains a CID present in the
bad-block cache (the first such CID `c`, recorded with reason `r`), the walk
step fails reporting `c` and `r`, and every already-accepted CID is inserted
into the capacity-`2^15` LRU cache with reason exactly `chain contained <c>`
(its entry is present immediately after its own put); whenever at most `2^15`
CIDs were accepted, they are all still present in the final cache (beyond
that the LRU evicts the oldest quarantined entries).  A clean key leaves the
cache untouched. -/
theorem validate_tipset_against_cache_spec (bad : LruBad)
    (cids accepted : List Nat) :
    ((∀ c ∈ cids, lruLookup bad c = none) →
      validate_tipset_against_cache bad cids accepted = (.ok (), bad)) ∧
    (∀ c, cids.find? (fun x => (lruLookup bad x).isSome) = some c →
      ∀ r, lruLookup bad c = some r →
      validate_tipset_against_cache bad cids accepted =
        (.error (.other ("Chain contained block marked as bad: " ++
            toString c ++ ", " ++ r)),
          quarantine (lruGet bad c).2 accepted c) ∧
      (∀ pre bh post, accepted = pre ++ bh :: post →
        lruLookup (quarantine (lruGet bad c).2 (pre ++ [bh]) c) bh =
          some ("chain contained " ++ toString c)) ∧
      (accepted.length ≤ badBlockCap → ∀ bh ∈ accepted,
        lruLookup (quarantine (lruGet bad c).2 accepted c) bh =
          some ("chain contained " ++ toString c))) := by
  induction cids with
  | nil =>
    refine ⟨fun _ => rfl, ?_⟩
    intro c hfind
    simp [List.find?] at hfind
  | cons c0 rest ih =>
    constructor
    · intro hclean
      have h0 : lruLookup bad c0 = none := hclean c0 (List.mem_cons_self c0 rest)
      rw [validate_tipset_against_cache, lruGet_of_lookup_none bad c0 h0]
      exact ih.1 fun c hc => hclean c (List.mem_cons_of_mem c0 hc)
    · intro c hfind r hr
      rw [List.find?_cons] at hfind
      rcases h0 : lruLookup bad c0 with _ | r0
      · rw [h0] at hfind
        simp only [Option.isSome_none] at hfind
        rw [validate_tipset_against_cache, lruGet_of_lookup_none bad c0 h0]
        exact ih.2 c hfind r hr
      · rw [h0] at hfind
        simp only [Option.isSome_some] at hfind
        have hc : c0 = c := by simpa using hfind
        subst hc
        refine ⟨?_, ?_, ?_⟩
        · rcases hg : lruGet bad c0 with ⟨o, bumped⟩
          have ho : o = some r := by
            have hfst := lruGet_fst bad c0
            rw [hg] at hfst
            exact hfst.trans hr
          subst ho
          rw [validate_tipset_against_cache, hg]
        · intro pre bh post _
          exact quarantine_inserts _ pre bh c0
        · intro hlen bh hbh
          exact quarantine_retains _ accepted c0 hlen bh hbh

/-- Witness for C6 at a concrete input: CID 2 is quarantined with reason
`"bad proof"`; validating a key containing 2 with accepted CIDs `[8, 9]`
fails naming 2 and the reason, inserts 8 and 9, and both are retained
(2 accepted CIDs, well within the capacity). -/
theorem validate_tipset_against_cache_spec_witness :
    (validate_tipset_against_cache [(2, "bad proof")] [5, 2] [8, 9] =
      (.error (.other ("Chain contained block marked as bad: " ++
          toString 2 ++ ", " ++ "bad proof")),
        quarantine (lruGet [(2, "bad proof")] 2).2 [8, 9] 2) ∧
    (∀ pre bh post, ([8, 9] : List Nat) = pre ++ bh :: post →
      lruLookup (quarantine (lruGet [(2, "bad proof")] 2).2 (pre ++ [bh]) 2) bh =
        some ("chain contained " ++ toString 2)) ∧
    (([8, 9] : List Nat).length ≤ badBlockCap → ∀ bh ∈ ([8, 9] : List Nat),
      lruLookup (quarantine (lruGet [(2, "bad proof")] 2).2 [8, 9] 2) bh =
        some ("chain contained " ++ toString 2))) :=
  (validate_tipset_against_cache_spec [(2, "bad proof")] [5, 2] [8, 9]).2 2
    (by rfl) "bad proof" (by rfl)

/-- The `check_for_beacon_entry` closure (`chain_store.rs:418-429`): return
the LAST beacon entry of the minimum-ticket block when present; error when
the scanned tipset is genesis (epoch 0); otherwise keep scanning. -/
def check_for_beacon_entry (ts : Tipset) : Except ChainError (Option BeaconEntry) :=
  match ts.min_ticket_block.beacon_entries.getLast? with
  | some entry => .ok (some entry)
  | none =>
    if ts.epoch = 0 then
      .error (.other "made it back to genesis block without finding beacon entry")
    else .ok none

/-- The tail of the `for i in 1..20` loop of `latest_beacon_entry`: the
iterations with `i != 1`, each stepping to the parent tipset and checking it;
`fuel` is the number of remaining iterations (18 after the `i = 1` check of
the pre-loop tipset). -/
def beaconStepLoop (cache : TsCache) (db : Store) :
    Nat → Tipset → Except ChainError (Option BeaconEntry)
  | 0, _ => .ok none
  | n + 1, cur =>
    match tipset_from_keys cache db cur.parents with
    | .error e => .error e
    | .ok nxt =>
      match check_for_beacon_entry nxt with
      | .error e => .error e
      | .ok (some entry) => .ok (some entry)
      | .ok none => beaconStepLoop cache db n nxt

/-- The fixed all-nines sentinel entry. -/
def nineEntry : BeaconEntry :=
  ⟨0, [9, 9, 9, 9, 9, 9, 9, 9, 9, 9, 9, 9, 9, 9, 9, 9]⟩

/-- `latest_beacon_entry` (`chain_store.rs:417-454`): scan `ts` and up to 19
ancestors; `ignore_drand` models `env::var(IGNORE_DRAND_VAR) == Ok("1")`.
Note the genesis error from `check_for_beacon_entry` propagates through `?`
BEFORE the `IGNORE_DRAND` test is reached. -/
def latest_beacon_entry (cache : TsCache) (db : Store) (ignore_drand : Bool)
    (ts : Tipset) : Except ChainError BeaconEntry :=
  match check_for_beacon_entry ts with
  | .error e => .error e
  | .ok (some entry) => .ok entry
  | .ok none =>
    match tipset_from_keys cache db ts.parents with
    | .error e => .error e
    | .ok cur =>
      match check_for_beacon_entry cur with
      | .error e => .error e
      | .ok (some entry) => .ok entry
      | .ok none =>
        match beaconStepLoop cache db 18 cur with
        | .error e => .error e
        | .ok (some entry) => .ok entry
        | .ok none =>
          if ignore_drand then .ok nineEntry
          else .error (.other "Found no beacon entries in the 20 latest tipsets")

def tsGen8 : Tipset := ⟨[⟨31, [], 0, 0, 1, 0, 0, [], 0, 0⟩]⟩

/-- **C8 counterexample**: scanning from a genesis tipset (epoch 0) with no
beacon entries fails with the genesis error even though `IGNORE_DRAND` is set
to `"1"`: the error propagates before the sentinel branch is reached, so the
claim's "including the case where the traversal reaches the genesis tipset"
is false. -/
theorem latest_beacon_entry_claim_counterexample :
    latest_beacon_entry cacheW dbW true tsGen8 =
      .error (.other "made it back to genesis block without finding beacon entry") ∧
    ∀ e : BeaconEntry, latest_beacon_entry cacheW dbW true tsGen8 ≠ .ok e := by
  refine ⟨rfl, ?_⟩
  intro e h
  rw [show latest_beacon_entry cacheW dbW true tsGen8 =
    .error (.other "made it back to genesis block without finding beacon entry")
    from rfl] at h
  exact Except.noConfusion h

/-- A beaconless, genesis-free, parent-linked chain of scanned tipsets: each
tipset has no beacon entries and non-zero epoch, and each loads the next as
its parent tipset. -/
def beaconlessChain (cache : TsCache) (db : Store) : List Tipset → Prop
  | [] => True
  | [t] => t.min_ticket_block.beacon_entries = [] ∧ t.epoch ≠ 0
  | t :: t' :: rest =>
    t.min_ticket_block.beacon_entries = [] ∧ t.epoch ≠ 0 ∧
    tipset_from_keys cache db t.parents = .ok t' ∧
    beaconlessChain cache db (t' :: rest)

lemma beaconlessChain_head (cache : TsCache) (db : Store) (t : Tipset)
    (l : List Tipset) (h : beaconlessChain cache db (t :: l)) :
    t.min_ticket_block.beacon_entries = [] ∧ t.epoch ≠ 0 := by
  cases l
  · exact h
  · exact ⟨h.1, h.2.1⟩

lemma beaconlessChain_link (cache : TsCache) (db : Store) (t t' : Tipset)
    (l : List Tipset) (h : beaconlessChain cache db (t :: t' :: l)) :
    tipset_from_keys cache db t.parents = .ok t' ∧
      beaconlessChain cache db (t' :: l) :=
  ⟨h.2.2.1, h.2.2.2⟩

lemma check_of_beaconless (t : Tipset)
    (hb : t.min_ticket_block.beacon_entries = []) (he : t.epoch ≠ 0) :
    check_for_beacon_entry t = .ok none := by
  rw [check_for_beacon_entry, hb]
  simp [he]

lemma beaconStepLoop_none (cache : TsCache) (db : Store) :
    ∀ (n : Nat) (t : Tipset) (l : List Tipset), l.length = n →
      beaconlessChain cache db (t :: l) →
      beaconStepLoop cache db n t = .ok none := by
  intro n
  induction n with
  | zero =>
    intro t l _ _
    rfl
  | succ m ih =>
    intro t l hlen hchain
    rcases l with _ | ⟨t1, rest⟩
    · simp at hlen
    · obtain ⟨hfetch, hchain'⟩ := beaconlessChain_link cache db t t1 rest hchain
      obtain ⟨hb1, he1⟩ := beaconlessChain_head cache db t1 rest hchain'
      rw [beaconStepLoop, hfetch]
      dsimp only
      rw [check_of_beaconless t1 hb1 he1]
      refine ih t1 rest ?_ hchain'
      simpa using hlen

/-- A beaconless, genesis-free, parent-linked prefix of scanned tipsets
followed by a final tipset `t`: every tipset of the list lacks beacon entries
and has non-zero epoch, each loads the next (or `t` at the end) as its parent
tipset. -/
def beaconlessThen (cache : TsCache) (db : Store) : List Tipset → Tipset → Prop
  | [], _ => True
  | u :: rest, t =>
    u.min_ticket_block.beacon_entries = [] ∧ u.epoch ≠ 0 ∧
    tipset_from_keys cache db u.parents = .ok (rest.headD t) ∧
    beaconlessThen cache db rest t

lemma check_entry_some (t : Tipset) (e : BeaconEntry)
    (he : t.min_ticket_block.beacon_entries.getLast? = some e) :
    check_for_beacon_entry t = .ok (some e) := by
  rw [check_for_beacon_entry, he]

lemma check_entry_genesis (t : Tipset)
    (hb : t.min_ticket_block.beacon_entries = []) (h0 : t.epoch = 0) :
    check_for_beacon_entry t =
      .error (.other "made it back to genesis block without finding beacon entry") := by
  rw [check_for_beacon_entry, hb]
  simp [h0]

/-- When a beaconless genesis-free chain from `u` leads within the available
fuel to a tipset `t` whose check is decisive (an entry or the genesis error),
the loop returns exactly the result of checking `t`. -/
lemma beaconStepLoop_reach (cache : TsCache) (db : Store) :
    ∀ (l : List Tipset) (u t : Tipset) (n : Nat),
      beaconlessThen cache db (u :: l) t →
      l.length < n →
      check_for_beacon_entry t ≠ .ok none →
      beaconStepLoop cache db n u = check_for_beacon_entry t := by
  intro l
  induction l with
  | nil =>
    intro u t n h hn hne
    obtain ⟨hb, he, hf, -⟩ := h
    rcases n with _ | m
    · omega
    · rw [beaconStepLoop, hf]
      dsimp only [List.headD]
      rcases hct : check_for_beacon_entry t with err | o
      · rfl
      · rcases o with _ | entry
        · exact absurd hct hne
        · rfl
  | cons u1 rest ih =>
    intro u t n h hn hne
    obtain ⟨hb, he, hf, hrest⟩ := h
    have hb1 : u1.min_ticket_block.beacon_entries = [] := hrest.1
    have he1 : u1.epoch ≠ 0 := hrest.2.1
    rcases n with _ | m
    · exact absurd hn (Nat.not_lt_zero _)
    · rw [beaconStepLoop, hf]
      dsimp only [List.headD]
      rw [check_of_beaconless u1 hb1 he1]
      dsimp only
      have hn' : rest.length < m := by
        simp only [List.length_cons] at hn
        omega
      exact ih u1 t m hrest hn' hne

/-- Lifts `beaconStepLoop_reach` through the pre-loop check and the first
loop iteration of `latest_beacon_entry`. -/
lemma latest_beacon_entry_reach (cache : TsCache) (db : Store) (ts t : Tipset)
    (l : List Tipset) (hchain : beaconlessThen cache db (ts :: l) t)
    (hlen : l.length ≤ 18)
    (hne : check_for_beacon_entry t ≠ .ok none) (ig : Bool) :
    (∀ e, check_for_beacon_entry t = .ok (some e) →
      latest_beacon_entry cache db ig ts = .ok e) ∧
    (∀ err, check_for_beacon_entry t = .error err →
      latest_beacon_entry cache db ig ts = .error err) := by
  rcases l with _ | ⟨u1, rest⟩ <;>
    obtain ⟨hb0, he0, hf0, hrest⟩ := hchain <;>
    have hc0 := check_of_beaconless ts hb0 he0
  · constructor
    · intro e hct
      rw [latest_beacon_entry, hc0]
      dsimp only
      rw [hf0]
      dsimp only [List.headD]
      rw [hct]
    · intro err hct
      rw [latest_beacon_entry, hc0]
      dsimp only
      rw [hf0]
      dsimp only [List.headD]
      rw [hct]
  · have hb1 : u1.min_ticket_block.beacon_entries = [] := hrest.1
    have he1 : u1.epoch ≠ 0 := hrest.2.1
    have hc1 := check_of_beaconless u1 hb1 he1
    have hlen' : rest.length < 18 := by
      simp only [List.length_cons] at hlen
      omega
    have hloop := beaconStepLoop_reach cache db rest u1 t 18 hrest hlen' hne
    constructor
    · intro e hct
      rw [latest_beacon_entry, hc0]
      dsimp only
      rw [hf0]
      dsimp only [List.headD]
      rw [hc1]
      dsimp only
      rw [hloop, hct]
    · intro err hct
      rw [latest_beacon_entry, hc0]
      dsimp only
      rw [hf0]
      dsimp only [List.headD]
      rw [hc1]
      dsimp only
      rw [hloop, hct]

/-- **C8 (amended)**: `latest_beacon_entry` scans `ts` and up to 19 further
ancestors and returns the LAST beacon entry of the first scanned tipset that
has one — whether that is `ts` itself or a tipset reached after a beaconless,
genesis-free prefix of the scan; when the scan reaches a beaconless genesis
tipset (epoch 0) — at the start or anywhere along the prefix — the genesis
error propagates regardless of `IGNORE_DRAND`; and when all 20 scanned
tipsets lack beacon entries and none is genesis, `IGNORE_DRAND = "1"` yields
the all-nines sentinel where the unset variable yields a failure. -/
theorem latest_beacon_entry_spec (cache : TsCache) (db : Store) (ts : Tipset) :
    (ts.epoch = 0 → ts.min_ticket_block.beacon_entries = [] →
      ∀ ig, latest_beacon_entry cache db ig ts =
        .error (.other "made it back to genesis block without finding beacon entry")) ∧
    (∀ e, ts.min_ticket_block.beacon_entries.getLast? = some e →
      ∀ ig, latest_beacon_entry cache db ig ts = .ok e) ∧
    (∀ l t, beaconlessThen cache db (ts :: l) t → l.length ≤ 18 →
      (∀ e, t.min_ticket_block.beacon_entries.getLast? = some e →
        ∀ ig, latest_beacon_entry cache db ig ts = .ok e) ∧
      (t.min_ticket_block.beacon_entries = [] → t.epoch = 0 →
        ∀ ig, latest_beacon_entry cache db ig ts =
          .error (.other "made it back to genesis block without finding beacon entry"))) ∧
    (∀ l, l.length = 19 → beaconlessChain cache db (ts :: l) →
      latest_beacon_entry cache db true ts = .ok nineEntry ∧
      latest_beacon_entry cache db false ts =
        .error (.other "Found no beacon entries in the 20 latest tipsets")) := by
  refine ⟨?_, ?_, ?_, ?_⟩
  · intro h0 hb ig
    have hc : check_for_beacon_entry ts =
        .error (.other "made it back to genesis block without finding beacon entry") :=
      check_entry_genesis ts hb h0
    rw [latest_beacon_entry, hc]
  · intro e he ig
    have hct := check_entry_some ts e he
    rw [latest_beacon_entry, hct]
  · intro l t hchain hlen
    constructor
    · intro e he ig
      have hct := check_entry_some t e he
      have hne : check_for_beacon_entry t ≠ .ok none := by
        rw [hct]
        intro hcontra
        exact Except.noConfusion hcontra fun hx => Option.noConfusion hx
      exact (latest_beacon_entry_reach cache db ts t l hchain hlen hne ig).1 e hct
    · intro hb h0 ig
      have hct := check_entry_genesis t hb h0
      have hne : check_for_beacon_entry t ≠ .ok none := by
        rw [hct]
        intro hcontra
        exact Except.noConfusion hcontra
      exact (latest_beacon_entry_reach cache db ts t l hchain hlen hne ig).2 _ hct
  · intro l hlen hchain
    rcases l with _ | ⟨t1, rest⟩
    · simp at hlen
    · obtain ⟨hb0, he0⟩ := beaconlessChain_head cache db ts (t1 :: rest) hchain
      obtain ⟨hfetch, hchain'⟩ := beaconlessChain_link cache db ts t1 rest hchain
      obtain ⟨hb1, he1⟩ := beaconlessChain_head cache db t1 rest hchain'
      have hc0 := check_of_beaconless ts hb0 he0
      have hc1 := check_of_beaconless t1 hb1 he1
      have hloop := beaconStepLoop_none cache db 18 t1 rest
        (by simpa using hlen) hchain'
      constructor
      · rw [latest_beacon_entry, hc0]
        dsimp only
        rw [hfetch]
        dsimp only
        rw [hc1]
        dsimp only
        rw [hloop]
        rfl
      · rw [latest_beacon_entry, hc0]
        dsimp only
        rw [hfetch]
        dsimp only
        rw [hc1]
        dsimp only
        rw [hloop]
        rfl

lemma beaconlessChain_replicate (cache : TsCache) (db : Store) (t : Tipset)
    (hb : t.min_ticket_block.beacon_entries = []) (he : t.epoch ≠ 0)
    (hf : tipset_from_keys cache db t.parents = .ok t) :
    ∀ n, beaconlessChain cache db (t :: List.replicate n t) := by
  intro n
  induction n with
  | zero => exact ⟨hb, he⟩
  | succ m ih => exact ⟨hb, he, hf, ih⟩

def hdr48 : BlockHeader := ⟨41, [41], 5, 0, 1, 0, 0, [], 0, 0⟩

/-- A self-parented beaconless tipset at epoch 5, so the scan can run for all
20 tipsets without entries and without reaching genesis. -/
def ts8 : Tipset := ⟨[hdr48]⟩

def db8 : Store := fun c => if c = 41 then some hdr48 else none

def entryE8 : BeaconEntry := ⟨7, [1, 2]⟩

/-- A tipset at epoch 3 carrying one beacon entry. -/
def hdrE8 : BlockHeader := ⟨51, [], 3, 0, 1, 0, 0, [entryE8], 0, 0⟩

def tsE8 : Tipset := ⟨[hdrE8]⟩

/-- A beaconless tipset at epoch 5 whose parent tipset is `tsE8`. -/
def hdrS8 : BlockHeader := ⟨52, [51], 5, 0, 1, 0, 0, [], 0, 0⟩

def tsS8 : Tipset := ⟨[hdrS8]⟩

def dbE8 : Store := fun c =>
  if c = 51 then some hdrE8 else if c = 52 then some hdrS8 else none

/-- Witness for the amended C8: a beaconless tipset whose parent carries an
entry yields that entry, and a concrete 20-tipset beaconless scan yields the
sentinel or the failure according to `IGNORE_DRAND`. -/
theorem latest_beacon_entry_spec_witness :
    (latest_beacon_entry cacheW dbE8 true tsS8 = .ok entryE8) ∧
    (latest_beacon_entry cacheW db8 true ts8 = .ok nineEntry ∧
     latest_beacon_entry cacheW db8 false ts8 =
       .error (.other "Found no beacon entries in the 20 latest tipsets")) :=
  ⟨((latest_beacon_entry_spec cacheW dbE8 tsS8).2.2.1 [] tsE8
      ⟨rfl, by decide, rfl, trivial⟩ (by decide)).1 entryE8 rfl true,
   (latest_beacon_entry_spec cacheW db8 ts8).2.2.2 (List.replicate 19 ts8)
     (by simp) (beaconlessChain_replicate cacheW db8 ts8 rfl (by decide) rfl 19)⟩

/-- An actor's state as read from the parent state tree: nonce and balance
(`actor_state.sequence`, `actor_state.balance`). -/
structure ActorState where
  sequence : Nat
  balance : Nat
deriving DecidableEq

/-- `StateTree::get_actor`, as a lookup from an address. -/
def StateTreeFn : Type := Nat → Except ChainError (Option ActorState)

/-- `Tipset::parent_state()`: the first block's state root. -/
def Tipset.parent_state (ts : Tipset) : Nat :=
  ts.min_ticket_block.state_root

/-- The message loop of the free `messages_for_tipset`
(`chain_store.rs:790-817`): the seed branch runs only when the sender is
ALREADY in `applied` (`if applied.contains_key(from_address)`), each `continue`
keeps the state mutated so far, and a message is pushed only after the
sequence and balance checks pass. -/
def processStateMsgs (state : StateTreeFn) :
    List ChainMessage → Applied → Applied →
      Except ChainError (List ChainMessage × Applied × Applied)
  | [], app, bal => .ok ([], app, bal)
  | m :: rest, app, bal =>
    match (if (app m.from_).isSome then
        (match state m.from_ with
         | .error e => .error e
         | .ok none => .error (.other "Actor state not found")
         | .ok (some actor) =>
           .ok (Applied.insert app m.from_ actor.sequence,
             Applied.insert bal m.from_ actor.balance))
      else .ok (app, bal) : Except ChainError (Applied × Applied)) with
    | .error e => .error e
    | .ok (app1, bal1) =>
      match app1 m.from_ with
      | none => processStateMsgs state rest app1 bal1
      | some seq =>
        if seq ≠ m.sequence then processStateMsgs state rest app1 bal1
        else
          match bal1 m.from_ with
          | none => processStateMsgs state rest
              (Applied.insert app1 m.from_ (seq + 1)) bal1
          | some b =>
            if b < m.required_funds then
              processStateMsgs state rest
                (Applied.insert app1 m.from_ (seq + 1)) bal1
            else
              match processStateMsgs state rest
                  (Applied.insert app1 m.from_ (seq + 1))
                  (Applied.insert bal1 m.from_ (b - m.required_funds)) with
              | .error e => .error e
              | .ok (msgs, a2, b2) => .ok (m :: msgs, a2, b2)

/-- The per-block fold of the free `messages_for_tipset`
(`chain_store.rs:822-827`), threading `applied` and `balances` across
blocks. -/
def messagesForTipsetBlocks (mdb : MsgStore) (state : StateTreeFn) :
    List BlockHeader → Applied → Applied → Except ChainError (List ChainMessage)
  | [], _, _ => .ok []
  | b :: rest, app, bal =>
    match block_messages mdb b with
    | .error e => .error e
    | .ok (unsigned, signed) =>
      match processStateMsgs state
          ((unsigned.map ChainMessage.unsigned) ++
            (signed.map ChainMessage.signed)) app bal with
      | .error e => .error e
      | .ok (msgs, app2, bal2) =>
        match messagesForTipsetBlocks mdb state rest app2 bal2 with
        | .error e => .error e
        | .ok t => .ok (msgs ++ t)

/-- The module-level function `messages_for_tipset` (`chain_store.rs:775-828`,
distinct from the `ChainStore` method of the same name): build the parent
state tree and filter every block's messages by nonce and balance.
`newStateTree` models `StateTree::new_from_root(db, ts.parent_state())`. -/
def messages_for_tipset (mdb : MsgStore)
    (newStateTree : Nat → Except ChainError StateTreeFn) (ts : Tipset) :
    Except ChainError (List ChainMessage) :=
  match newStateTree ts.parent_state with
  | .error e => .error e
  | .ok state =>
    messagesForTipsetBlocks mdb state ts.blocks (fun _ => none) (fun _ => none)

lemma processStateMsgs_empty_applied (state : StateTreeFn) :
    ∀ (msgs : List ChainMessage) (bal : Applied),
      processStateMsgs state msgs (fun _ => none) bal =
        .ok ([], fun _ => none, bal) := by
  intro msgs
  induction msgs with
  | nil =>
    intro bal
    rfl
  | cons m rest ih =>
    intro bal
    rw [processStateMsgs]
    simp only [Option.isSome_none, if_neg (by simp : ¬ False)]
    exact ih bal

lemma messagesForTipsetBlocks_empty (mdb : MsgStore) (state : StateTreeFn) :
    ∀ (bs : List BlockHeader) (bal : Applied) (l : List ChainMessage),
      messagesForTipsetBlocks mdb state bs (fun _ => none) bal = .ok l →
      l = [] := by
  intro bs
  induction bs with
  | nil =>
    intro bal l h
    simp only [messagesForTipsetBlocks, Except.ok.injEq] at h
    exact h.symm
  | cons b rest ih =>
    intro bal l h
    rw [messagesForTipsetBlocks] at h
    rcases hbm : block_messages mdb b with e | ⟨unsigned, signed⟩
    · rw [hbm] at h
      exact absurd h (by simp)
    · rw [hbm] at h
      dsimp only at h
      rw [processStateMsgs_empty_applied state] at h
      dsimp only at h
      rcases hrec : messagesForTipsetBlocks mdb state rest (fun _ => none) bal
        with e | t
      · rw [hrec] at h
        exact absurd h (by simp)
      · rw [hrec] at h
        simp only [List.nil_append, Except.ok.injEq] at h
        rw [← h]
        exact ih bal t hrec

/-- **C9**: the module-level `messages_for_tipset` returns the empty list
whenever it succeeds: the branch seeding a sender's sequence and balance from
the parent state runs only when the sender is already in `applied`, which
never happens, so every message of every block is skipped. -/
theorem messages_for_tipset_empty (mdb : MsgStore)
    (newStateTree : Nat → Except ChainError StateTreeFn) (ts : Tipset)
    (l : List ChainMessage)
    (hok : messages_for_tipset mdb newStateTree ts = .ok l) : l = [] := by
  rw [messages_for_tipset] at hok
  rcases hst : newStateTree ts.parent_state with e | state
  · rw [hst] at hok
    exact absurd hok (by simp)
  · rw [hst] at hok
    exact messagesForTipsetBlocks_empty mdb state ts.blocks (fun _ => none) l hok

/-- A state tree with every address present and funded. -/
def stW : Nat → Except ChainError StateTreeFn :=
  fun _ => .ok (fun _ => .ok (some ⟨5, 100⟩))

/-- Witness for C9 at a concrete input: `tsD` does carry messages under
`mdbW` (senders with funds in `stW`), yet the result is the empty list. -/
theorem messages_for_tipset_empty_witness :
    messages_for_tipset mdbW stW tsD = .ok [] ∧ ([] : List ChainMessage) = [] :=
  ⟨rfl, messages_for_tipset_empty mdbW stW tsD [] rfl⟩
